import Mathlib

/-!
Verification development for the expression-simplification and
range-extraction core of the KipData/kipsql SQL engine
(src/expression/simplify.rs and src/expression/evaluator.rs).

The Rust code is shallowly embedded: in-place mutation becomes explicit
value threading (functions that mutate a subtree return the mutated
subtree alongside their result), `Result<_, TypeError>` becomes
`Except`, and a Rust panic (`unwrap` on `None`, `unreachable!`) is the
distinguished error `EvalError.panicked`.  The value algebra
(`DataValue`, `binary_op`, `unary_op`, casts, partial comparison) is not
part of the provided sources; it is modelled from the specification, as
marked on each such definition.
-/

namespace KipSql

/-- Errors.  `typeError` embeds the single `TypeError` kind of the source
(§7 of the spec); `panicked` marks a Rust panic (`unwrap`/`unreachable!`);
`outOfFuel` is an artifact of the fuel-indexed embedding of the
non-structural recursion in `_simplify`/`fix_expr` and never occurs in
any theorem below (all results there are `.ok`). -/
inductive EvalError where
  | typeError
  | panicked
  | outOfFuel
  deriving DecidableEq, Repr

/-- Modelled from the spec (§3): logical column types.  Restricted to the
types exercised by the claims. -/
inductive LogicalType where
  | integer
  | boolean
  deriving DecidableEq, Repr

/-- Modelled from the spec (§3, §4.A): SQL values.  `DataValue::Int32(Option<i32>)`
and `DataValue::Boolean(Option<bool>)` carry their nullability inside, and
`DataValue::Null` is the untyped null.  Arithmetic is modelled on unbounded
integers (the spec §4.A leaves the overflow discipline to the implementer
and requires only that the choice be documented; this development documents
the choice of exact integer arithmetic). -/
inductive DataValue where
  | null
  | boolean (b : Option Bool)
  | int32 (n : Option Int)
  deriving DecidableEq, Repr

namespace DataValue

/-- Modelled from the spec (§4.A): `DataValue::is_null`. -/
def is_null : DataValue → Bool
  | .null => true
  | .boolean none => true
  | .int32 none => true
  | _ => false

/-- Total comparison on `Int`, mirroring `Ord::cmp` on `i32`. -/
def cmpInt (a b : Int) : Ordering :=
  if a < b then .lt else if a = b then .eq else .gt

/-- Modelled from the spec (§4.A): `PartialOrd::partial_cmp` on values.
Comparing any NULL, or values of incompatible types, yields `none`. -/
def pcmp : DataValue → DataValue → Option Ordering
  | .int32 (some a), .int32 (some b) => some (cmpInt a b)
  | .boolean (some a), .boolean (some b) =>
      some (cmpInt (if a then 1 else 0) (if b then 1 else 0))
  | _, _ => none

/-- Modelled from the spec (§4.A): `DataValue::cast(target) -> Value | TypeError`. -/
def cast (v : DataValue) (ty : LogicalType) : Except EvalError DataValue :=
  match v, ty with
  | .int32 o, .integer => .ok (.int32 o)
  | .boolean o, .boolean => .ok (.boolean o)
  | .null, .integer => .ok (.int32 none)
  | .null, .boolean => .ok (.boolean none)
  | _, _ => .error .typeError

end DataValue

/-- Operators of `ScalarExpression::Binary` (the variants used by the
simplification core). -/
inductive BinaryOperator where
  | plus | minus | multiply | divide
  | gt | lt | gtEq | ltEq | eq | notEq | spaceship
  | and | or | xor
  deriving DecidableEq, Repr

/-- Operators of `ScalarExpression::Unary`. -/
inductive UnaryOperator where
  | plus | minus | not
  deriving DecidableEq, Repr

/-- Modelled from the spec (§4.A): `binary_op(l, r, op) -> Value | TypeError`
(file `expression/value_compute.rs`, not among the provided sources).
Integer arithmetic propagates NULL; comparisons on NULL yield the NULL
boolean; `Spaceship` is null-safe equality; logical operators follow SQL
three-valued logic; incompatible operand types are a `TypeError`.
Division by zero is modelled as a Rust panic. -/
def binary_op (l r : DataValue) (op : BinaryOperator) : Except EvalError DataValue :=
  match op with
  | .plus | .minus | .multiply | .divide =>
    match l, r with
    | .int32 (some a), .int32 (some b) =>
      match op with
      | .plus => .ok (.int32 (some (a + b)))
      | .minus => .ok (.int32 (some (a - b)))
      | .multiply => .ok (.int32 (some (a * b)))
      | _ => if b = 0 then .error .panicked else .ok (.int32 (some (Int.tdiv a b)))
    | .int32 _, .int32 _ => .ok (.int32 none)
    | .int32 _, .null => .ok (.int32 none)
    | .null, .int32 _ => .ok (.int32 none)
    | _, _ => .error .typeError
  | .gt | .lt | .gtEq | .ltEq | .eq | .notEq =>
    match l, r with
    | .int32 (some a), .int32 (some b) =>
      let o := DataValue.cmpInt a b
      match op with
      | .gt => .ok (.boolean (some (o = .gt)))
      | .lt => .ok (.boolean (some (o = .lt)))
      | .gtEq => .ok (.boolean (some (o ≠ .lt)))
      | .ltEq => .ok (.boolean (some (o ≠ .gt)))
      | .eq => .ok (.boolean (some (o = .eq)))
      | _ => .ok (.boolean (some (o ≠ .eq)))
    | .int32 _, .int32 _ => .ok (.boolean none)
    | .int32 _, .null => .ok (.boolean none)
    | .null, .int32 _ => .ok (.boolean none)
    | .boolean (some a), .boolean (some b) =>
      match op with
      | .eq => .ok (.boolean (some (a = b)))
      | .notEq => .ok (.boolean (some (a ≠ b)))
      | _ => .error .typeError
    | .boolean _, .boolean _ =>
      match op with
      | .eq | .notEq => .ok (.boolean none)
      | _ => .error .typeError
    | _, _ => .error .typeError
  | .spaceship => .ok (.boolean (some (l = r)))
  | .and =>
    match l, r with
    | .boolean a, .boolean b =>
      if a = some false ∨ b = some false then .ok (.boolean (some false))
      else match a, b with
        | some _, some _ => .ok (.boolean (some true))
        | _, _ => .ok (.boolean none)
    | _, _ => .error .typeError
  | .or =>
    match l, r with
    | .boolean a, .boolean b =>
      if a = some true ∨ b = some true then .ok (.boolean (some true))
      else match a, b with
        | some _, some _ => .ok (.boolean (some false))
        | _, _ => .ok (.boolean none)
    | _, _ => .error .typeError
  | .xor =>
    match l, r with
    | .boolean (some a), .boolean (some b) => .ok (.boolean (some (xor a b)))
    | .boolean _, .boolean _ => .ok (.boolean none)
    | _, _ => .error .typeError

/-- Modelled from the spec (§4.A): `unary_op(v, op) -> Value | TypeError`. -/
def unary_op (v : DataValue) (op : UnaryOperator) : Except EvalError DataValue :=
  match op, v with
  | .plus, .int32 o => .ok (.int32 o)
  | .minus, .int32 o => .ok (.int32 (o.map (fun a => -a)))
  | .not, .boolean o => .ok (.boolean (o.map (fun b => !b)))
  | _, _ => .error .typeError

/-- Column identifiers (`ColumnId = u32` in `types/mod.rs`). -/
abbrev ColumnId := Nat

/-- `ColumnCatalog` (the fields the simplification core reads: the
optional `id` used by `new_binary`, and the `name` used by the
evaluator's name lookup). -/
structure ColumnCatalog where
  id : Option ColumnId
  name : String
  deriving DecidableEq, Repr

/-- `std::collections::Bound` over value references. -/
inductive VBound where
  | unbounded
  | included (v : DataValue)
  | excluded (v : DataValue)
  deriving DecidableEq, Repr

/-- `ConstantBinary` (simplify.rs lines 14-27).  Per the source comment,
a `ConstantBinary` inside `And` can only be `Scope`/`Eq`/`NotEq`, and
inside `Or` only `Scope`/`Eq`/`NotEq`/`And`. -/
inductive ConstantBinary where
  | scope (min : VBound) (max : VBound)
  | eq (v : DataValue)
  | notEq (v : DataValue)
  | and (binaries : List ConstantBinary)
  | or (binaries : List ConstantBinary)
  deriving Repr

mutual

/-- Structural decidable equality for the nested inductive. -/
def decEqCB : (a b : ConstantBinary) → Decidable (a = b)
  | .scope a1 a2, .scope b1 b2 =>
    if h1 : a1 = b1 then
      if h2 : a2 = b2 then isTrue (by rw [h1, h2]) else isFalse (by simp [h2])
    else isFalse (by simp [h1])
  | .eq v, .eq w =>
    if h : v = w then isTrue (by rw [h]) else isFalse (by simp [h])
  | .notEq v, .notEq w =>
    if h : v = w then isTrue (by rw [h]) else isFalse (by simp [h])
  | .and xs, .and ys =>
    match decEqCBList xs ys with
    | isTrue h => isTrue (by rw [h])
    | isFalse h => isFalse (by simp [h])
  | .or xs, .or ys =>
    match decEqCBList xs ys with
    | isTrue h => isTrue (by rw [h])
    | isFalse h => isFalse (by simp [h])
  | .scope _ _, .eq _ | .scope _ _, .notEq _ | .scope _ _, .and _ | .scope _ _, .or _
  | .eq _, .scope _ _ | .eq _, .notEq _ | .eq _, .and _ | .eq _, .or _
  | .notEq _, .scope _ _ | .notEq _, .eq _ | .notEq _, .and _ | .notEq _, .or _
  | .and _, .scope _ _ | .and _, .eq _ | .and _, .notEq _ | .and _, .or _
  | .or _, .scope _ _ | .or _, .eq _ | .or _, .notEq _ | .or _, .and _ =>
    isFalse (fun h => ConstantBinary.noConfusion h)

/-- Pointwise decidable equality on lists of `ConstantBinary`. -/
def decEqCBList : (a b : List ConstantBinary) → Decidable (a = b)
  | [], [] => isTrue rfl
  | [], _ :: _ => isFalse (by simp)
  | _ :: _, [] => isFalse (by simp)
  | x :: xs, y :: ys =>
    match decEqCB x y with
    | isFalse h1 => isFalse (by simp [h1])
    | isTrue h1 =>
      match decEqCBList xs ys with
      | isTrue h2 => isTrue (by rw [h1, h2])
      | isFalse h2 => isFalse (by simp [h2])

end

instance : DecidableEq ConstantBinary := decEqCB

namespace ConstantBinary

/-- `ConstantBinary::bound_compared` (simplify.rs lines 144-168). -/
def bound_compared (left_bound right_bound : VBound) (is_min : Bool) : Option Ordering :=
  let op := fun (is_min : Bool) (order : Ordering) =>
    if is_min then order else Ordering.swap order
  match left_bound, right_bound with
  | .unbounded, .unbounded => some .eq
  | .unbounded, _ => some (op is_min .lt)
  | _, .unbounded => some (op is_min .gt)
  | .included l, .included r => DataValue.pcmp l r
  | .included l, .excluded r =>
      (DataValue.pcmp l r).map (fun o => o.then (op is_min .lt))
  | .excluded l, .excluded r => DataValue.pcmp l r
  | .excluded l, .included r =>
      (DataValue.pcmp l r).map (fun o => o.then (op is_min .gt))

/-- Sort key closure in `rearrange` (simplify.rs lines 68-75): the lower
bound of an element; `Eq(v)` sorts as `Included(v)`, `NotEq(v)` as
`Excluded(v)`.  The source hits `unreachable!` on `And`/`Or`; those
shapes are excluded by every theorem below and mapped to a junk value. -/
def minKey : ConstantBinary → VBound
  | .scope mn _ => mn
  | .eq v => .included v
  | .notEq v => .excluded v
  | _ => .unbounded

/-- Merge-phase key closure in `rearrange` (simplify.rs lines 84-91):
`(min, max)` of a candidate; `Eq(v)` acts as `(Unbounded, Included(v))`,
`NotEq(v)` as `(Unbounded, Excluded(v))`.  `And`/`Or` are `unreachable!`
in the source and mapped to a junk value here. -/
def condOp : ConstantBinary → VBound × VBound
  | .scope mn mx => (mn, mx)
  | .eq v => (.unbounded, .included v)
  | .notEq v => (.unbounded, .excluded v)
  | _ => (.unbounded, .unbounded)

/-- Comparator used by `sort_by` in `rearrange` (simplify.rs lines 67-79):
compare lower bounds, defaulting incomparable pairs to `Equal`. -/
def cmpMin (a b : ConstantBinary) : Ordering :=
  (bound_compared (minKey a) (minKey b) true).getD .eq

def isScope : ConstantBinary → Bool
  | .scope _ _ => true
  | _ => false

/-- Stable insertion into a list sorted by `le` (insertion before the
first element the new one is `le`-related to keeps equal keys stable). -/
def orderedIns (le : ConstantBinary → ConstantBinary → Bool) (a : ConstantBinary) :
    List ConstantBinary → List ConstantBinary
  | [] => [a]
  | b :: l => if le a b then a :: b :: l else b :: orderedIns le a l

/-- Stable sort modelling Rust's stable `sort_by`; any stable sort agrees
with it under a total transitive comparator, which every theorem below
guarantees by hypothesis. -/
def stableSortBy (le : ConstantBinary → ConstantBinary → Bool) :
    List ConstantBinary → List ConstantBinary
  | [] => []
  | a :: l => orderedIns le a (stableSortBy le l)

/-- Flattening loop of `rearrange` (simplify.rs lines 56-65): reject a
nested `Or`, splice the elements of an `And`, drop a universal `Scope`,
keep everything else in order. -/
def flattenOr : List ConstantBinary → Except EvalError (List ConstantBinary)
  | [] => .ok []
  | .or _ :: _ => .error .typeError
  | .and ys :: rest => (fun l => ys ++ l) <$> flattenOr rest
  | .scope .unbounded .unbounded :: rest => flattenOr rest
  | b :: rest => (fun l => b :: l) <$> flattenOr rest

/-- Body of the `if let ConstantBinary::Scope { max, .. }` branch of the
merge loop (simplify.rs lines 95-112): given the most recent scope's
`max` and the candidate, compute its replacement `max` and the final
`is_push` flag (which started as `false`, the list being non-empty). -/
def scopeBranch (mx : VBound) (cond : ConstantBinary) : VBound × Bool :=
  let cb := condOp cond
  let is_lt_min := ((bound_compared mx cb.1 false).getD .eq) = .lt
  let is_lt_max := ((bound_compared mx cb.2 false).getD .eq) = .lt
  if ¬ is_lt_min ∧ is_lt_max then (cb.2, false)
  else if ¬ cond.isScope then (mx, is_lt_max)
  else if is_lt_min ∧ is_lt_max then (mx, true)
  else (mx, false)

/-- The inner `for binary in merged_binaries.iter_mut().rev()` loop of
`rearrange` (simplify.rs lines 94-114): walk from the end of `merged` to
the most recent `Scope` (recursing on the tail first locates the last
`Scope`); at it, apply `scopeBranch`.  Returns `none` when `merged`
holds no `Scope` (the loop finds nothing). -/
def updLast (cond : ConstantBinary) : List ConstantBinary →
    Option (List ConstantBinary × Bool)
  | [] => none
  | b :: rest =>
    match updLast cond rest with
    | some (rest', p) => some (b :: rest', p)
    | none =>
      match b with
      | .scope mn mx =>
        let r := scopeBranch mx cond
        some (.scope mn r.1 :: rest, r.2)
      | _ => none

/-- One iteration of the merging loop of `rearrange` (simplify.rs lines
83-119): locate the most recent `Scope` with `updLast`, then push the
candidate or not according to the computed flag (`is_push` starts as
`merged_binaries.is_empty()`). -/
def mergeStep (merged : List ConstantBinary) (cond : ConstantBinary) :
    List ConstantBinary :=
  match updLast cond merged with
  | none => if merged.isEmpty then merged ++ [cond] else merged
  | some (m, push) => if push then m ++ [cond] else m

/-- The full merging loop of `rearrange`. -/
def mergeAll (l : List ConstantBinary) : List ConstantBinary :=
  l.foldl mergeStep []

/-- `ConstantBinary::rearrange` (simplify.rs lines 51-126). -/
def rearrange : ConstantBinary → Except EvalError (List ConstantBinary)
  | .or binaries => do
    let condition_binaries ← flattenOr binaries
    let sorted := stableSortBy (fun a b => cmpMin a b ≠ .gt) condition_binaries
    .ok (mergeAll sorted)
  | .and binaries => .ok binaries
  | source => .ok [source]

/-- Sort key of `_scope_aggregation` (simplify.rs lines 176-183). -/
def aggKey : ConstantBinary → Nat
  | .scope _ _ => 3
  | .notEq _ => 2
  | .eq _ => 1
  | _ => 0

/-- `binaries.iter().sorted_by_key(sort_op)`: a stable sort by the
four-valued key, written as bucket concatenation (which is what any
stable sort produces for this key). -/
def aggSorted (bs : List ConstantBinary) : List ConstantBinary :=
  bs.filter (fun b => aggKey b = 0) ++ bs.filter (fun b => aggKey b = 1) ++
  bs.filter (fun b => aggKey b = 2) ++ bs.filter (fun b => aggKey b = 3)

/-- State of the aggregation loop: the running scope bounds and the set
of `Eq` values (`HashSet` modelled as a duplicate-free list; the final
`sorted_by` makes the iteration order irrelevant under the total orders
assumed by the theorems below). -/
structure AggState where
  scope_min : VBound
  scope_max : VBound
  eq_set : List DataValue

/-- The `scope_min` tightening of the aggregation loop (simplify.rs
lines 192-196): replace the accumulator when it compares strictly below
the new scope's `min`; an incomparable pair leaves it unchanged. -/
def tightenMin (acc mn : VBound) : VBound :=
  match bound_compared acc mn true with
  | some o => if o = .lt then mn else acc
  | none => acc

/-- The `scope_max` tightening of the aggregation loop (simplify.rs
lines 198-202). -/
def tightenMax (acc mx : VBound) : VBound :=
  match bound_compared acc mx false with
  | some o => if o = .gt then mx else acc
  | none => acc

/-- `HashSet::insert`, modelled on the duplicate-free list. -/
def insVal (acc : List DataValue) (v : DataValue) : List DataValue :=
  if v ∈ acc then acc else acc ++ [v]

/-- Loop body of `_scope_aggregation` (simplify.rs lines 186-212). -/
def aggStep (st : AggState) (b : ConstantBinary) : Except EvalError AggState :=
  match b with
  | .scope mn mx =>
    if st.eq_set ≠ [] then .ok st
    else
      .ok { st with scope_min := tightenMin st.scope_min mn,
                    scope_max := tightenMax st.scope_max mx }
  | .eq v => .ok { st with eq_set := insVal st.eq_set v }
  | .notEq v => .ok { st with eq_set := st.eq_set.filter (fun w => w ≠ v) }
  | _ => .error .typeError

/-- Monadic left fold of the aggregation loop. -/
def aggFold (st : AggState) : List ConstantBinary → Except EvalError AggState
  | [] => .ok st
  | b :: rest => do aggFold (← aggStep st b) rest

/-- Comparator for the final `sorted_by` over the `Eq` set
(simplify.rs line 215). -/
def eqLe (a b : DataValue) : Bool :=
  ((DataValue.pcmp a b).getD .eq) ≠ .gt

/-- Stable insertion sort over values, for the final `Eq` ordering. -/
def sortVals : List DataValue → List DataValue
  | [] => []
  | a :: l => go a (sortVals l)
where
  go (a : DataValue) : List DataValue → List DataValue
    | [] => [a]
    | b :: l => if eqLe a b then a :: b :: l else b :: go a l

/-- `ConstantBinary::_scope_aggregation` (simplify.rs lines 171-233). -/
def _scope_aggregation (binaries : List ConstantBinary) :
    Except EvalError (List ConstantBinary) := do
  let st ← aggFold ⟨.unbounded, .unbounded, []⟩ (aggSorted binaries)
  let eq_binaries := (sortVals st.eq_set).map ConstantBinary.eq
  if ¬ eq_binaries.isEmpty then
    .ok eq_binaries
  else if ¬ (st.scope_min = .unbounded ∧ st.scope_max = .unbounded) then
    .ok [.scope st.scope_min st.scope_max]
  else
    .ok []

mutual

/-- `ConstantBinary::scope_aggregation` (simplify.rs lines 128-142). -/
def scope_aggregation : ConstantBinary → Except EvalError ConstantBinary
  | .and binaries => (fun l => .and l) <$> _scope_aggregation binaries
  | .or binaries => (fun l => .or l) <$> scopeAggList binaries
  | b => .ok b

/-- Element-wise `scope_aggregation` over the arms of an `Or`. -/
def scopeAggList : List ConstantBinary → Except EvalError (List ConstantBinary)
  | [] => .ok []
  | b :: rest => do
    let b' ← scope_aggregation b
    let rest' ← scopeAggList rest
    .ok (b' :: rest')

end

end ConstantBinary

/-- `ScalarExpression` (modelled from the spec §3; the defining file of
the enum is not among the provided sources, but every variant and field
below is exercised by simplify.rs or evaluator.rs).  `IsNull` carries
the `negated` flag of the spec's data model, which evaluator.rs reads
and simplify.rs ignores (its patterns bind only `expr`). -/
inductive ScalarExpression where
  | constant (v : DataValue)
  | columnRef (col : ColumnCatalog)
  | alias (expr : ScalarExpression) (name : String)
  | typeCast (expr : ScalarExpression) (ty : LogicalType)
  | isNull (expr : ScalarExpression) (negated : Bool)
  | unary (op : UnaryOperator) (expr : ScalarExpression) (ty : LogicalType)
  | binary (op : BinaryOperator) (left : ScalarExpression) (right : ScalarExpression)
      (ty : LogicalType)
  | aggCall
  deriving DecidableEq, Repr

/-- `Replace::Binary` payload (simplify.rs lines 241-247). -/
structure ReplaceBinary where
  column_expr : ScalarExpression
  val_expr : ScalarExpression
  op : BinaryOperator
  ty : LogicalType
  is_column_left : Bool
  deriving DecidableEq, Repr

/-- `Replace::Unary` payload (simplify.rs lines 249-253). -/
structure ReplaceUnary where
  child_expr : ScalarExpression
  op : UnaryOperator
  ty : LogicalType
  deriving DecidableEq, Repr

/-- `Replace` (simplify.rs lines 236-239). -/
inductive Replace where
  | binary (b : ReplaceBinary)
  | unary (u : ReplaceUnary)
  deriving DecidableEq, Repr

namespace ScalarExpression

/-- `ScalarExpression::unpack_val` (simplify.rs lines 256-295).  The
Rust function takes `&mut self` because the `Binary` arm memoizes a
successful fold by replacing the node with `Constant(result)`; the
embedding returns the mutated tree next to the optional value.  Note
that the `IsNull` arm returns `Some(Boolean(_))` even when the inner
expression does not fold (`is_null` is then `None`, the SQL NULL
boolean), and that it ignores the `negated` flag. -/
def unpack_val : ScalarExpression → ScalarExpression × Option DataValue
  | .constant v => (.constant v, some v)
  | .alias e name =>
    let (e', v) := unpack_val e
    (.alias e' name, v)
  | .typeCast e ty =>
    let (e', v) := unpack_val e
    (.typeCast e' ty, v.bind (fun w => (w.cast ty).toOption))
  | .isNull e negated =>
    let (e', v) := unpack_val e
    (.isNull e' negated, some (.boolean (v.map DataValue.is_null)))
  | .unary op e ty =>
    let (e', v) := unpack_val e
    (.unary op e' ty, v.bind (fun w => (unary_op w op).toOption))
  | .binary op l r ty =>
    let (l', lv) := unpack_val l
    match lv with
    | none => (.binary op l' r ty, none)
    | some lval =>
      let (r', rv) := unpack_val r
      match rv with
      | none => (.binary op l' r' ty, none)
      | some rval =>
        match binary_op lval rval op with
        | .ok v => (.constant v, some v)
        | .error _ => (.binary op l' r' ty, none)
  | e => (e, none)

/-- `ScalarExpression::unpack_col` (simplify.rs lines 297-316). -/
def unpack_col (e : ScalarExpression) (is_binary_then_return : Bool) :
    Option ColumnCatalog :=
  match e with
  | .columnRef col => some col
  | .alias e _ => unpack_col e is_binary_then_return
  | .binary _ l r _ =>
    if is_binary_then_return then none
    else
      match unpack_col l is_binary_then_return, unpack_col r is_binary_then_return with
      | some col, none => some col
      | none, some col => some col
      | _, _ => none
  | .unary _ e _ => unpack_col e is_binary_then_return
  | _ => none

/-- `ScalarExpression::fix_unary` (simplify.rs lines 413-451): replace
the column slot with the unary's child, wrap the value slot in the
unary, and adjust the comparison operator.  Returns the new
`(col_expr, val_expr, op)`. -/
def fix_unary (u : ReplaceUnary) (col_expr val_expr : ScalarExpression)
    (op : BinaryOperator) : ScalarExpression × ScalarExpression × BinaryOperator :=
  let _ := col_expr
  let newOp :=
    match u.op with
    | .plus => op
    | .minus =>
      match op with
      | .plus => .minus
      | .minus => .plus
      | .multiply => .divide
      | .divide => .multiply
      | .gt => .lt
      | .lt => .gt
      | .gtEq => .ltEq
      | .ltEq => .gtEq
      | source_op => source_op
    | .not =>
      match op with
      | .gt => .lt
      | .lt => .gt
      | .gtEq => .ltEq
      | .ltEq => .gtEq
      | source_op => source_op
  (u.child_expr, .unary u.op val_expr u.ty, newOp)

/-- Arithmetic inversion in `fix_binary` (simplify.rs lines 460-468);
the `unreachable!` arm is a panic, modelled explicitly. -/
def op_flip : BinaryOperator → Except EvalError BinaryOperator
  | .plus => .ok .minus
  | .minus => .ok .plus
  | .multiply => .ok .divide
  | .divide => .ok .multiply
  | _ => .error .panicked

/-- Comparison inversion in `fix_binary` (simplify.rs lines 469-477). -/
def comparison_flip : BinaryOperator → BinaryOperator
  | .gt => .lt
  | .gtEq => .ltEq
  | .lt => .gt
  | .ltEq => .gtEq
  | source_op => source_op

/-- `ScalarExpression::fix_binary` (simplify.rs lines 453-494): absorb a
`col ⊕ k` (or `k ⊕ col`) arithmetic node into the enclosing comparison.
Returns the new `(left_expr, right_expr, op)`. -/
def fix_binary (rb : ReplaceBinary) (left_expr right_expr : ScalarExpression)
    (op : BinaryOperator) :
    Except EvalError (ScalarExpression × ScalarExpression × BinaryOperator) := do
  let _ := left_expr
  if rb.is_column_left then
    let fixed_op ← op_flip rb.op
    .ok (rb.column_expr, .binary fixed_op right_expr rb.val_expr rb.ty, op)
  else
    let newCmp :=
      if rb.op = .minus ∨ rb.op = .multiply then comparison_flip op else op
    .ok (rb.column_expr, .binary rb.op rb.val_expr right_expr rb.ty, newCmp)

mutual

/-- `ScalarExpression::_simplify` (simplify.rs lines 323-391).  The Rust
`&mut self` / `&mut Option<Replace>` pair becomes explicit threading:
the function returns the rewritten node together with the outgoing
`fix_option`.  The recursion is not structural (after `fix_unary`,
`fix_expr` re-enters itself on the rewritten pair), so it is indexed by
fuel; every theorem below supplies enough fuel for its input, and no
stated result is `EvalError.outOfFuel`. -/
def _simplify (fuel : Nat) (e : ScalarExpression) (fix : Option Replace) :
    Except EvalError (ScalarExpression × Option Replace) :=
  match fuel with
  | 0 => .error .outOfFuel
  | fuel + 1 =>
    match e with
    | .binary op l r ty => do
      let (fix1, l1, r1, op1) ← fix_expr fuel fix l r op
      let (fix2, r2, l2, op2) ← fix_expr fuel fix1 r1 l1 op1
      if op2 = .plus ∨ op2 = .divide ∨ op2 = .minus ∨ op2 = .multiply then
        match unpack_col l2 true, unpack_col r2 true with
        | some _, some _ => .ok (.binary op2 l2 r2 ty, fix2)
        | some col, none =>
          .ok (.binary op2 l2 r2 ty,
            some (.binary ⟨.columnRef col, r2, op2, ty, true⟩))
        | none, some col =>
          .ok (.binary op2 l2 r2 ty,
            some (.binary ⟨.columnRef col, l2, op2, ty, false⟩))
        | none, none => .ok (.binary op2 l2 r2 ty, fix2)
      else
        .ok (.binary op2 l2 r2 ty, fix2)
    | .alias e name => do
      let (e', fix') ← _simplify fuel e fix
      .ok (.alias e' name, fix')
    | .typeCast e ty =>
      match unpack_val e with
      | (_, some v) => .ok (.constant v, fix)
      | (e', none) => .ok (.typeCast e' ty, fix)
    | .isNull e negated =>
      match unpack_val e with
      | (_, some v) => .ok (.constant (.boolean (some v.is_null)), fix)
      | (e', none) => .ok (.isNull e' negated, fix)
    | .unary op e ty =>
      match unpack_val e with
      | (_, some v) => do
        let v' ← unary_op v op
        .ok (.constant v', fix)
      | (e', none) => .ok (.unary op e' ty, some (.unary ⟨e', op, ty⟩))
    | e => .ok (e, fix)

/-- `ScalarExpression::fix_expr` (simplify.rs lines 393-411): simplify
the first slot; if a replacement was published, take it and apply
`fix_binary` or `fix_unary` (re-entering after the latter). -/
def fix_expr (fuel : Nat) (fix : Option Replace)
    (left_expr right_expr : ScalarExpression) (op : BinaryOperator) :
    Except EvalError (Option Replace × ScalarExpression × ScalarExpression × BinaryOperator) :=
  match fuel with
  | 0 => .error .outOfFuel
  | fuel + 1 => do
    let (l1, fixOut) ← _simplify fuel left_expr fix
    match fixOut with
    | none => .ok (none, l1, right_expr, op)
    | some (.binary rb) =>
      let (l2, r2, op2) ← fix_binary rb l1 right_expr op
      .ok (none, l2, r2, op2)
    | some (.unary ru) =>
      let (l2, r2, op2) := fix_unary ru l1 right_expr op
      fix_expr fuel none l2 r2 op2

end

/-- `ScalarExpression::simplify` (simplify.rs lines 318-320): run
`_simplify` with a fresh `fix_option` and drop it. -/
def simplify (fuel : Nat) (e : ScalarExpression) : Except EvalError ScalarExpression := do
  let (e', _) ← _simplify fuel e none
  .ok e'

/-- `ScalarExpression::new_binary` (simplify.rs lines 573-621).  The
source calls `col.id.unwrap()` before comparing against the target
column id; a missing id is therefore a panic, modelled explicitly. -/
def new_binary (col_id : ColumnId) (op : BinaryOperator) (col : ColumnCatalog)
    (val : DataValue) (is_flip : Bool) : Except EvalError (Option ConstantBinary) := do
  match col.id with
  | none => .error .panicked
  | some id =>
    if id ≠ col_id then
      .ok none
    else
      let op' :=
        if is_flip then
          match op with
          | .gt => .lt
          | .lt => .gt
          | .gtEq => .ltEq
          | .ltEq => .gtEq
          | source_op => source_op
        else op
      match op' with
      | .gt => .ok (some (.scope (.excluded val) .unbounded))
      | .lt => .ok (some (.scope .unbounded (.excluded val)))
      | .gtEq => .ok (some (.scope (.included val) .unbounded))
      | .ltEq => .ok (some (.scope .unbounded (.included val)))
      | .eq | .spaceship => .ok (some (.eq val))
      | .notEq => .ok (some (.notEq val))
      | _ => .ok none

/-- Body of `convert_binary`'s `Binary` arm after the two recursive
calls (simplify.rs lines 504-562): combine the children's ranges, or
attempt the leaf form when neither child yields one.  Factored out of
`convert_binary` so proofs can step through it; `lp`/`rp` are the
(mutated child, optional range) pairs of the recursive calls. -/
def convert_combine (col_id : ColumnId) (op : BinaryOperator) (ty : LogicalType)
    (lp rp : ScalarExpression × Option ConstantBinary) :
    Except EvalError (ScalarExpression × Option ConstantBinary) :=
  match lp, rp with
  | (l1, lb), (r1, rb) =>
    match lb, rb with
    | some leftBin, some rightBin =>
      match leftBin, rightBin with
      | .and la, .and ra => .ok (.binary op l1 r1 ty, some (.and (la ++ ra)))
      | .or la, .or ra => .ok (.binary op l1 r1 ty, some (.and (la ++ ra)))
      | .and la, .or ra => .ok (.binary op l1 r1 ty, some (.or (ra ++ la)))
      | .or la, .and ra => .ok (.binary op l1 r1 ty, some (.or (la ++ ra)))
      | .and la, b => .ok (.binary op l1 r1 ty, some (.and (la ++ [b])))
      | b, .and ra => .ok (.binary op l1 r1 ty, some (.and (ra ++ [b])))
      | .or la, b => .ok (.binary op l1 r1 ty, some (.or (la ++ [b])))
      | b, .or ra => .ok (.binary op l1 r1 ty, some (.or (ra ++ [b])))
      | leftB, rightB =>
        match op with
        | .and => .ok (.binary op l1 r1 ty, some (.and [leftB, rightB]))
        | .or => .ok (.binary op l1 r1 ty, some (.or [leftB, rightB]))
        | .xor => .error .panicked
        | _ => .ok (.binary op l1 r1 ty, none)
    | none, none =>
      let lc := unpack_col l1 false
      let (r2, rv) := unpack_val r1
      match lc, rv with
      | some col, some val => do
        let nb ← new_binary col_id op col val false
        .ok (.binary op l1 r2 ty, nb)
      | _, _ =>
        let (l2, lv) := unpack_val l1
        let rc := unpack_col r2 false
        match lv, rc with
        | some val, some col => do
          let nb ← new_binary col_id op col val true
          .ok (.binary op l2 r2 ty, nb)
        | _, _ => .ok (.binary op l2 r2 ty, none)
    | some b, none => .ok (.binary op l1 r1 ty, some b)
    | none, some b => .ok (.binary op l1 r1 ty, some b)

/-- `ScalarExpression::convert_binary` (simplify.rs lines 500-571).
`&mut self` is threaded as in `unpack_val`: the leaf attempts call
`unpack_val`, whose memoization mutates the children, and the order of
those attempts (left-column first, then right-column, the second seeing
the first attempt's mutations) follows the source. -/
def convert_binary (e : ScalarExpression) (col_id : ColumnId) :
    Except EvalError (ScalarExpression × Option ConstantBinary) :=
  match e with
  | .binary op l r ty => do
    let lp ← convert_binary l col_id
    let rp ← convert_binary r col_id
    convert_combine col_id op ty lp rp
  | .alias e name => do
    let (e', b) ← convert_binary e col_id
    .ok (.alias e' name, b)
  | .typeCast e ty => do
    let (e', b) ← convert_binary e col_id
    .ok (.typeCast e' ty, b)
  | .isNull e negated => do
    let (e', b) ← convert_binary e col_id
    .ok (.isNull e' negated, b)
  | .unary op e ty => do
    let (e', b) ← convert_binary e col_id
    .ok (.unary op e' ty, b)
  | e => .ok (e, none)

end ScalarExpression

/-- `Tuple` (types/tuple.rs, modelled from the spec §6: an ordered
record of named, typed values).  The evaluator pairs `columns[i]` with
`values[i]`; the embedding zips them (the claims below use tuples with
matching lengths, where the zip is exact). -/
structure Tuple where
  columns : List ColumnCatalog
  values : List DataValue
  deriving DecidableEq, Repr

namespace ScalarExpression

/-- `ScalarExpression::eval_with_name` (evaluator.rs lines 75-81). -/
def eval_with_name (t : Tuple) (name : String) : Option DataValue :=
  ((t.columns.zip t.values).find? (fun p => p.1.name = name)).map (fun p => p.2)

/-- `ScalarExpression::eval_column` (evaluator.rs lines 15-73).  Every
call first tries the lookup by the expression's output-column name; the
name function `output_columns().name()` lives outside the provided
sources, so it is passed as the parameter `outName` (the theorems below
either hold for every `outName` or constrain it pointwise). -/
def eval_column (outName : ScalarExpression → String) (e : ScalarExpression)
    (t : Tuple) : Except EvalError DataValue :=
  match eval_with_name t (outName e) with
  | some v => .ok v
  | none =>
    match e with
    | .constant v => .ok v
    | .columnRef col => .ok ((eval_with_name t col.name).getD .null)
    | .alias inner a =>
      match eval_with_name t a with
      | some v => .ok v
      | none => eval_column outName inner t
    | .typeCast inner ty => do
      let v ← eval_column outName inner t
      v.cast ty
    | .binary op l r _ => do
      let lv ← eval_column outName l t
      let rv ← eval_column outName r t
      binary_op lv rv op
    | .isNull inner negated => do
      let v ← eval_column outName inner t
      .ok (.boolean (some (if negated then !v.is_null else v.is_null)))
    | .unary op inner _ => do
      let v ← eval_column outName inner t
      unary_op v op
    | .aggCall => .ok ((eval_with_name t (outName e)).getD .null)

end ScalarExpression

/-- Decidable equality on `Except`, so that concrete runs of the model
can be checked by `decide`. -/
instance {ε α : Type} [DecidableEq ε] [DecidableEq α] : DecidableEq (Except ε α) :=
  fun a b =>
    match a, b with
    | .ok x, .ok y => if h : x = y then isTrue (by rw [h]) else isFalse (by simp [h])
    | .error x, .error y => if h : x = y then isTrue (by rw [h]) else isFalse (by simp [h])
    | .ok _, .error _ => isFalse (fun h => Except.noConfusion h)
    | .error _, .ok _ => isFalse (fun h => Except.noConfusion h)

/-! Statement vocabulary: predicates used to state the claims (they read
the inputs and outputs, not the algorithms). -/

/-- A value drawn from the totally ordered integer domain (the domain of
the spec's §8 scenarios; it makes `partial_cmp` total, which is what
lets a deterministic model stand in for Rust's stable `sort_by`). -/
def IntV (v : DataValue) : Prop := ∃ k : Int, v = .int32 (some k)

/-- A bound over the integer domain. -/
def IntB : VBound → Prop
  | .unbounded => True
  | .included v => IntV v
  | .excluded v => IntV v

/-- A `ConstantBinary` leaf (`Scope`/`Eq`/`NotEq`) over the integer domain. -/
def LeafInt : ConstantBinary → Prop
  | .scope mn mx => IntB mn ∧ IntB mx
  | .eq v => IntV v
  | .notEq v => IntV v
  | _ => False

/-- An admissible arm of an `Or` per the source's invariant (simplify.rs
lines 23-26): a leaf, or an `And` of leaves. -/
def ArmOK : ConstantBinary → Prop
  | .and ys => ∀ y ∈ ys, LeafInt y
  | b => LeafInt b

/-- `n` satisfies a lower bound. -/
def satMin (n : Int) : VBound → Prop
  | .unbounded => True
  | .included v => ∃ k : Int, v = .int32 (some k) ∧ k ≤ n
  | .excluded v => ∃ k : Int, v = .int32 (some k) ∧ k < n

/-- `n` satisfies an upper bound. -/
def satMax (n : Int) : VBound → Prop
  | .unbounded => True
  | .included v => ∃ k : Int, v = .int32 (some k) ∧ n ≤ k
  | .excluded v => ∃ k : Int, v = .int32 (some k) ∧ n < k

/-- The upper bound `M` lies strictly below the lower bound `m`: no
integer satisfies both, i.e. the regions are disjoint. -/
def semBelow (M m : VBound) : Prop := ∀ n : Int, ¬ (satMax n M ∧ satMin n m)

/-- Sortedness relation of `rearrange`: the comparator never says the
left element's lower bound is greater. -/
def leMinCB (a b : ConstantBinary) : Prop := ConstantBinary.cmpMin a b ≠ .gt

instance decLeMinCB (a b : ConstantBinary) : Decidable (leMinCB a b) :=
  inferInstanceAs (Decidable (ConstantBinary.cmpMin a b ≠ .gt))

/-- The `max` field of a scope (junk elsewhere; always guarded by
`isScope`). -/
def scopeMax : ConstantBinary → VBound
  | .scope _ mx => mx
  | _ => .unbounded

/-- Two list elements are non-overlapping as scopes: if both are
`Scope`s, no integer lies in both. -/
def scDisj (a b : ConstantBinary) : Prop :=
  ∀ m1 M1 m2 M2, a = .scope m1 M1 → b = .scope m2 M2 →
    ∀ n : Int, ¬ ((satMin n m1 ∧ satMax n M1) ∧ (satMin n m2 ∧ satMax n M2))

/-- Dominance relation carried by the merge invariant: an earlier scope
ends strictly before a later scope begins. -/
def domRel (a b : ConstantBinary) : Prop :=
  a.isScope = true → b.isScope = true → semBelow (scopeMax a) (ConstantBinary.minKey b)

/-- A leaf over the integer domain whose lower bound is bounded (the
refinement under which `rearrange` produces a disjoint cover; a `Scope`
arm with an `Unbounded` lower bound defeats the merge loop's
`is_lt_min` test, see the C4 counterexample). -/
def LeafIntB : ConstantBinary → Prop
  | .scope mn mx => IntB mn ∧ IntB mx ∧ mn ≠ .unbounded
  | .eq v => IntV v
  | .notEq v => IntV v
  | _ => False

/-- An admissible arm of an `Or` under the bounded-lower-bound
refinement. -/
def ArmOKB : ConstantBinary → Prop
  | .and ys => ∀ y ∈ ys, LeafIntB y
  | b => LeafIntB b

/-- Injective encoding of an integer lower bound into the integers:
`Unbounded` first, then by value with `Included` before `Excluded`. -/
def encMin : VBound → Int × Int
  | .unbounded => (0, 0)
  | .included (.int32 (some k)) => (1, 2 * k)
  | .excluded (.int32 (some k)) => (1, 2 * k + 1)
  | _ => (0, 0)

/-- Lexicographic comparison of the encodings. -/
def pairCmp (p q : Int × Int) : Ordering :=
  if p.1 < q.1 then .lt else if q.1 < p.1 then .gt else DataValue.cmpInt p.2 q.2

/-- Values of the `Eq` elements of a list. -/
def eqVals (xs : List ConstantBinary) : List DataValue :=
  xs.filterMap (fun b => match b with | .eq v => some v | _ => none)

/-- Values of the `NotEq` elements of a list. -/
def neqVals (xs : List ConstantBinary) : List DataValue :=
  xs.filterMap (fun b => match b with | .notEq v => some v | _ => none)

/-- Bound pairs of the `Scope` elements of a list. -/
def scopeBds (xs : List ConstantBinary) : List (VBound × VBound) :=
  xs.filterMap (fun b => match b with | .scope mn mx => some (mn, mx) | _ => none)

/-! ## Model validation

The five scenario vectors of the source's own test module
(`test_convert_binary_simple`, `test_scope_aggregation_*`,
`test_rearrange`) evaluate in the embedding to exactly the outputs the
Rust tests assert, pinning the embedding to the source's behaviour. -/

theorem model_test_convert_simple :
    ScalarExpression.convert_binary
        (.binary .eq (.constant (.int32 (some 1))) (.columnRef ⟨some 0, "c1"⟩) .boolean) 0
      = .ok (.binary .eq (.constant (.int32 (some 1))) (.columnRef ⟨some 0, "c1"⟩) .boolean,
          some (.eq (.int32 (some 1)))) ∧
    ScalarExpression.convert_binary
        (.binary .lt (.columnRef ⟨some 0, "c1"⟩) (.constant (.int32 (some 1))) .boolean) 0
      = .ok (.binary .lt (.columnRef ⟨some 0, "c1"⟩) (.constant (.int32 (some 1))) .boolean,
          some (.scope .unbounded (.excluded (.int32 (some 1))))) := by
  exact ⟨rfl, rfl⟩

theorem model_test_scope_aggregation :
    ConstantBinary.scope_aggregation (.and [.eq (.int32 (some 0)), .notEq (.int32 (some 1)),
        .eq (.int32 (some 2)), .notEq (.int32 (some 3))])
      = .ok (.and [.eq (.int32 (some 0)), .eq (.int32 (some 2))]) ∧
    ConstantBinary.scope_aggregation (.and [
        .scope (.excluded (.int32 (some 0))) (.included (.int32 (some 3))),
        .scope (.included (.int32 (some 1))) (.excluded (.int32 (some 2))),
        .scope (.excluded (.int32 (some 1))) (.included (.int32 (some 2))),
        .scope (.included (.int32 (some 0))) (.excluded (.int32 (some 3))),
        .scope .unbounded .unbounded])
      = .ok (.and [.scope (.excluded (.int32 (some 1))) (.excluded (.int32 (some 2)))]) := by
  exact ⟨by decide, by decide⟩

theorem model_test_rearrange :
    ConstantBinary.rearrange (.or [
        .scope (.excluded (.int32 (some 6))) (.included (.int32 (some 10))),
        .scope (.excluded (.int32 (some 0))) (.included (.int32 (some 3))),
        .scope (.included (.int32 (some 1))) (.excluded (.int32 (some 2))),
        .scope (.excluded (.int32 (some 1))) (.included (.int32 (some 2))),
        .scope (.included (.int32 (some 0))) (.excluded (.int32 (some 3))),
        .scope (.included (.int32 (some 6))) (.included (.int32 (some 7))),
        .scope .unbounded .unbounded,
        .notEq (.int32 (some 8)),
        .eq (.int32 (some 5)),
        .eq (.int32 (some 0)),
        .eq (.int32 (some 1))])
      = .ok [
        .scope (.included (.int32 (some 0))) (.included (.int32 (some 3))),
        .eq (.int32 (some 5)),
        .scope (.included (.int32 (some 6))) (.included (.int32 (some 10)))] := by
  decide

/-! ## Claims -/

/-- Claim C10: `convert_binary` is partial on columns without an id.  For
every comparison whose matching side is a `ColumnRef` with `id = None`
and whose other side folds to a constant, `new_binary` (reached from
`convert_binary`) panics on the `unwrap` of the missing id instead of
returning `Err(TypeError)` or `Ok(None)`. -/
theorem C10_theorem (c : ColumnCatalog) (cid : ColumnId) (op : BinaryOperator)
    (v : DataValue) (ty : LogicalType) (h : c.id = none) :
    ScalarExpression.convert_binary (.binary op (.columnRef c) (.constant v) ty) cid
      = .error .panicked := by
  obtain ⟨i, name⟩ := c
  cases h
  rfl

/-- Witness for C10 at a concrete missing-id column. -/
theorem C10_witness :
    ScalarExpression.convert_binary
        (.binary .gt (.columnRef ⟨none, "c1"⟩) (.constant (.int32 (some 1))) .boolean) 0
      = .error .panicked :=
  C10_theorem ⟨none, "c1"⟩ 0 .gt (.int32 (some 1)) .boolean rfl

/-- Claim C8 (code bug): `simplify` is not idempotent.  On
`5 < (- c1)` the first pass rewrites to `(- 5) > c1` but leaves the
ground unary `- 5` unfolded (the value slot of a `fix_unary` rewrite
that lands on the already-processed side is never re-simplified); the
second pass folds it to the constant `-5`, so the tree changes. -/
theorem C8_theorem :
    ScalarExpression.simplify 32
        (.binary .lt (.constant (.int32 (some 5)))
          (.unary .minus (.columnRef ⟨some 0, "c1"⟩) .integer) .boolean)
      = .ok (.binary .gt (.unary .minus (.constant (.int32 (some 5))) .integer)
          (.columnRef ⟨some 0, "c1"⟩) .boolean) ∧
    ScalarExpression.simplify 32
        (.binary .gt (.unary .minus (.constant (.int32 (some 5))) .integer)
          (.columnRef ⟨some 0, "c1"⟩) .boolean)
      = .ok (.binary .gt (.constant (.int32 (some (-5))))
          (.columnRef ⟨some 0, "c1"⟩) .boolean) ∧
    (.binary .gt (.unary .minus (.constant (.int32 (some 5))) .integer)
        (.columnRef ⟨some 0, "c1"⟩) .boolean : ScalarExpression)
      ≠ .binary .gt (.constant (.int32 (some (-5))))
          (.columnRef ⟨some 0, "c1"⟩) .boolean := by
  exact ⟨by decide, by decide, by decide⟩

/-- Claim C1 (code bug): `simplify` does not preserve `eval_column`
semantics.  On `1 IS NOT NULL` (an `IsNull` node with `negated = true`
over a constant), `_simplify` folds the node to `Constant(Boolean(false))`
- its `IsNull` arm binds only `expr` and discards `negated` - while
`eval_column` honours the negation and returns `Boolean(true)`.  Both
evaluations succeed (over the empty tuple, for every output-name
function) and disagree. -/
theorem C1_theorem (outName : ScalarExpression → String) :
    ScalarExpression.simplify 32 (.isNull (.constant (.int32 (some 1))) true)
      = .ok (.constant (.boolean (some false))) ∧
    ScalarExpression.eval_column outName
        (.isNull (.constant (.int32 (some 1))) true) ⟨[], []⟩
      = .ok (.boolean (some true)) ∧
    ScalarExpression.eval_column outName
        (.constant (.boolean (some false))) ⟨[], []⟩
      = .ok (.boolean (some false)) := by
  exact ⟨by decide, rfl, rfl⟩

/-- Claim C5, counterexample: on `IsNull(e)` with `e` a bare column
reference - which does not fold - `unpack_val` still returns `Some`,
and the returned boolean is the SQL NULL boolean, contradicting both
the "exactly when `e` folds" and the "never the SQL NULL boolean"
parts of the claim. -/
theorem C5_counterexample :
    ScalarExpression.unpack_val (.isNull (.columnRef ⟨some 0, "c1"⟩) false)
      = (.isNull (.columnRef ⟨some 0, "c1"⟩) false, some (.boolean none)) ∧
    (ScalarExpression.unpack_val (.columnRef ⟨some 0, "c1"⟩)).2 = none ∧
    DataValue.is_null (.boolean none) = true :=
  ⟨rfl, rfl, rfl⟩

/-- Claim C5 as amended: `unpack_val` on `IsNull(e)` always returns
`Some(Boolean(b?))`, where `b?` is the nullness of the folded value when
`e` folds, and is `None` (the SQL NULL boolean) when `e` does not fold. -/
theorem C5_theorem (e : ScalarExpression) (negated : Bool) :
    ScalarExpression.unpack_val (.isNull e negated)
      = (.isNull (ScalarExpression.unpack_val e).1 negated,
          some (.boolean ((ScalarExpression.unpack_val e).2.map DataValue.is_null))) ∧
    ((ScalarExpression.unpack_val e).2 = none →
      (ScalarExpression.unpack_val (.isNull e negated)).2 = some (.boolean none)) ∧
    (∀ v, (ScalarExpression.unpack_val e).2 = some v →
      (ScalarExpression.unpack_val (.isNull e negated)).2
        = some (.boolean (some (DataValue.is_null v)))) := by
  rcases hu : ScalarExpression.unpack_val e with ⟨e1, v1⟩
  refine ⟨?_, ?_, ?_⟩
  · simp [ScalarExpression.unpack_val, hu]
  · intro h
    simp at h
    simp [ScalarExpression.unpack_val, hu, h]
  · intro v h
    simp at h
    simp [ScalarExpression.unpack_val, hu, h]

/-- Helper for C9: the flattening loop of `rearrange` surfaces
`TypeError` whenever a direct `Or` element occurs anywhere in the list. -/
theorem flattenOr_error_of_or (xs : List ConstantBinary)
    (h : ∃ b ∈ xs, ∃ ys, b = ConstantBinary.or ys) :
    ConstantBinary.flattenOr xs = .error .typeError := by
  induction xs with
  | nil => simp at h
  | cons a rest ih =>
    obtain ⟨b, hb, ys, rfl⟩ := h
    rcases List.mem_cons.mp hb with h1 | h1
    · subst h1
      rfl
    · have hr := ih ⟨.or ys, h1, ys, rfl⟩
      cases a with
      | or zs => rfl
      | and zs => simp [ConstantBinary.flattenOr, hr, Except.map]
      | eq v => simp [ConstantBinary.flattenOr, hr, Except.map]
      | notEq v => simp [ConstantBinary.flattenOr, hr, Except.map]
      | scope mn mx =>
        cases mn <;> cases mx <;> simp [ConstantBinary.flattenOr, hr, Except.map]

/-- Claim C9: malformed-input errors of the normalizers.
`scope_aggregation` on an `And` list containing a nested `And` or `Or`
returns `Err(TypeError)` (the kind-key sort places nested lists first,
so the error fires before any result is assembled), and `rearrange` on
an `Or` list containing a nested `Or` returns `Err(TypeError)`; both
surface the error to the caller. -/
theorem C9_theorem :
    (∀ xs : List ConstantBinary,
      (∃ b ∈ xs, (∃ ys, b = ConstantBinary.and ys) ∨ (∃ ys, b = ConstantBinary.or ys)) →
      ConstantBinary.scope_aggregation (.and xs) = .error .typeError) ∧
    (∀ xs : List ConstantBinary, (∃ b ∈ xs, ∃ ys, b = ConstantBinary.or ys) →
      ConstantBinary.rearrange (.or xs) = .error .typeError) := by
  constructor
  · rintro xs ⟨b, hb, hshape⟩
    have hk : ConstantBinary.aggKey b = 0 := by
      rcases hshape with ⟨ys, rfl⟩ | ⟨ys, rfl⟩ <;> rfl
    have hmem : b ∈ xs.filter (fun x => ConstantBinary.aggKey x = 0) :=
      List.mem_filter.mpr ⟨hb, by simp [hk]⟩
    rcases hfe : xs.filter (fun x => ConstantBinary.aggKey x = 0) with _ | ⟨hd, tl⟩
    · rw [hfe] at hmem
      simp at hmem
    · have hhd : ConstantBinary.aggKey hd = 0 := by
        have hin : hd ∈ xs.filter (fun x => ConstantBinary.aggKey x = 0) := by
          rw [hfe]
          exact List.mem_cons_self _ _
        simpa using (List.mem_filter.mp hin).2
      have hstep : ∀ st, ConstantBinary.aggStep st hd = .error .typeError := by
        intro st
        cases hd <;> first | rfl | (exfalso; simp [ConstantBinary.aggKey] at hhd)
      show (fun l => ConstantBinary.and l) <$> ConstantBinary._scope_aggregation xs
        = .error .typeError
      rw [ConstantBinary._scope_aggregation, ConstantBinary.aggSorted, hfe]
      simp [ConstantBinary.aggFold, hstep, Except.map]
      rfl
  · intro xs h
    have hf := flattenOr_error_of_or xs h
    simp [ConstantBinary.rearrange, hf, Except.map]
    rfl

/-- Witness for C9 at concrete malformed inputs. -/
theorem C9_witness :
    ConstantBinary.scope_aggregation
        (.and [.eq (.int32 (some 1)), .and []]) = .error .typeError ∧
    ConstantBinary.rearrange
        (.or [.eq (.int32 (some 1)), .or []]) = .error .typeError :=
  ⟨C9_theorem.1 _ ⟨.and [], by simp, Or.inl ⟨[], rfl⟩⟩,
   C9_theorem.2 _ ⟨.or [], by simp, [], rfl⟩⟩

/-- Helper: reduction of `Except` bind on a success value. -/
theorem ok_bind {a b : Type} (x : a) (f : a → Except EvalError b) :
    (Except.ok x >>= f) = f x := rfl

/-- Helper: `convert_binary` on a `Binary` node is the two recursive
calls followed by `convert_combine`. -/
theorem convert_binary_step (op : BinaryOperator) (l r : ScalarExpression)
    (ty : LogicalType) (cid : ColumnId) :
    ScalarExpression.convert_binary (.binary op l r ty) cid
      = ScalarExpression.convert_binary l cid >>= fun lp =>
          ScalarExpression.convert_binary r cid >>= fun rp =>
            ScalarExpression.convert_combine cid op ty lp rp := rfl

/-- Claim C2, counterexample: the claim omits the source's "neither side
yields a range" guard.  With the matching column on the left and
`IsNull(c1 = 1)` on the right - which folds via `unpack_val` to the
value `Boolean(None)` - the right side nevertheless lowers to the range
`Eq(1)`, so `convert_binary` returns `Eq(1)` instead of the claimed
`Scope{min=Excluded(Boolean(None)), max=Unbounded}` for `>`. -/
theorem C2_counterexample :
    (ScalarExpression.unpack_val
        (.isNull (.binary .eq (.columnRef ⟨some 0, "c1"⟩)
          (.constant (.int32 (some 1))) .boolean) false)).2
      = some (.boolean none) ∧
    ScalarExpression.convert_binary
        (.binary .gt (.columnRef ⟨some 0, "c1"⟩)
          (.isNull (.binary .eq (.columnRef ⟨some 0, "c1"⟩)
            (.constant (.int32 (some 1))) .boolean) false) .boolean) 0
      = .ok (.binary .gt (.columnRef ⟨some 0, "c1"⟩)
          (.isNull (.binary .eq (.columnRef ⟨some 0, "c1"⟩)
            (.constant (.int32 (some 1))) .boolean) false) .boolean,
          some (.eq (.int32 (some 1)))) ∧
    (some (ConstantBinary.eq (.int32 (some 1)))
      ≠ some (ConstantBinary.scope (.excluded (.boolean none)) .unbounded)) :=
  ⟨rfl, by decide, by decide⟩

/-- Claim C2 as amended: leaf lowering of `convert_binary`, under the
source's guard that neither side lowers to a range.  If one side is a
`ColumnRef` whose id equals the target `col_id`, and the other side
lowers to no range and folds via `unpack_val` to `v`, then
`convert_binary` returns the claimed table of scopes (`>`/`<`/`>=`/`<=`),
`Eq(v)` for `=` and spaceship, `NotEq(v)` for `!=`, and `None`
otherwise; with the column on the right, `<`/`>`/`<=`/`>=` are first
flipped to their mirror operators. -/
theorem C2_theorem (c : ColumnCatalog) (cid : ColumnId) (R R1 R2 : ScalarExpression)
    (v : DataValue) (op : BinaryOperator) (ty : LogicalType)
    (hid : c.id = some cid)
    (hR : ScalarExpression.convert_binary R cid = .ok (R1, none))
    (hv : ScalarExpression.unpack_val R1 = (R2, some v)) :
    ScalarExpression.convert_binary (.binary op (.columnRef c) R ty) cid
      = .ok (.binary op (.columnRef c) R2 ty,
          match op with
          | .gt => some (.scope (.excluded v) .unbounded)
          | .lt => some (.scope .unbounded (.excluded v))
          | .gtEq => some (.scope (.included v) .unbounded)
          | .ltEq => some (.scope .unbounded (.included v))
          | .eq => some (.eq v)
          | .spaceship => some (.eq v)
          | .notEq => some (.notEq v)
          | _ => none) ∧
    ScalarExpression.convert_binary (.binary op R (.columnRef c) ty) cid
      = .ok (.binary op R2 (.columnRef c) ty,
          match op with
          | .gt => some (.scope .unbounded (.excluded v))
          | .lt => some (.scope (.excluded v) .unbounded)
          | .gtEq => some (.scope .unbounded (.included v))
          | .ltEq => some (.scope (.included v) .unbounded)
          | .eq => some (.eq v)
          | .spaceship => some (.eq v)
          | .notEq => some (.notEq v)
          | _ => none) := by
  obtain ⟨copt, nm⟩ := c
  cases hid
  have hcol : ScalarExpression.convert_binary (.columnRef ⟨some cid, nm⟩) cid
      = .ok (.columnRef ⟨some cid, nm⟩, none) := rfl
  constructor
  · rw [convert_binary_step]
    simp only [hcol, hR, ok_bind]
    simp only [ScalarExpression.convert_combine, ScalarExpression.unpack_col, hv]
    simp [ScalarExpression.new_binary]
    cases op <;> rfl
  · rw [convert_binary_step]
    simp only [hcol, hR, ok_bind]
    simp only [ScalarExpression.convert_combine, ScalarExpression.unpack_col,
      ScalarExpression.unpack_val, hv]
    rcases h1 : ScalarExpression.unpack_col R1 false with _ | col <;>
      · simp only [h1, hv]
        simp [ScalarExpression.new_binary]
        cases op <;> rfl

/-- Witness for C2 at a concrete constant side, both orientations. -/
theorem C2_witness :
    ScalarExpression.convert_binary
        (.binary .gt (.columnRef ⟨some 0, "c1"⟩) (.constant (.int32 (some 7))) .boolean) 0
      = .ok (.binary .gt (.columnRef ⟨some 0, "c1"⟩) (.constant (.int32 (some 7))) .boolean,
          some (.scope (.excluded (.int32 (some 7))) .unbounded)) ∧
    ScalarExpression.convert_binary
        (.binary .gt (.constant (.int32 (some 7))) (.columnRef ⟨some 0, "c1"⟩) .boolean) 0
      = .ok (.binary .gt (.constant (.int32 (some 7))) (.columnRef ⟨some 0, "c1"⟩) .boolean,
          some (.scope .unbounded (.excluded (.int32 (some 7))))) :=
  C2_theorem ⟨some 0, "c1"⟩ 0 (.constant (.int32 (some 7))) (.constant (.int32 (some 7)))
    (.constant (.int32 (some 7))) (.int32 (some 7)) .gt .boolean rfl rfl rfl

/-- Claim C6: combination rule of `convert_binary`.  When both children
lower to ranges: two `And` lists or two `Or` lists concatenate into an
`And` (in particular two `Or` arguments produce an `And`, not an `Or`);
`And(a)` with `Or(b)` produces `Or` of `b` with `a` appended, in either
orientation. -/
theorem C6_theorem (cid : ColumnId) (L R L1 R1 : ScalarExpression)
    (a b : List ConstantBinary) (op : BinaryOperator) (ty : LogicalType) :
    (ScalarExpression.convert_binary L cid = .ok (L1, some (.and a)) →
      ScalarExpression.convert_binary R cid = .ok (R1, some (.and b)) →
      ScalarExpression.convert_binary (.binary op L R ty) cid
        = .ok (.binary op L1 R1 ty, some (.and (a ++ b)))) ∧
    (ScalarExpression.convert_binary L cid = .ok (L1, some (.or a)) →
      ScalarExpression.convert_binary R cid = .ok (R1, some (.or b)) →
      ScalarExpression.convert_binary (.binary op L R ty) cid
        = .ok (.binary op L1 R1 ty, some (.and (a ++ b)))) ∧
    (ScalarExpression.convert_binary L cid = .ok (L1, some (.and a)) →
      ScalarExpression.convert_binary R cid = .ok (R1, some (.or b)) →
      ScalarExpression.convert_binary (.binary op L R ty) cid
        = .ok (.binary op L1 R1 ty, some (.or (b ++ a)))) ∧
    (ScalarExpression.convert_binary L cid = .ok (L1, some (.or a)) →
      ScalarExpression.convert_binary R cid = .ok (R1, some (.and b)) →
      ScalarExpression.convert_binary (.binary op L R ty) cid
        = .ok (.binary op L1 R1 ty, some (.or (a ++ b)))) := by
  refine ⟨?_, ?_, ?_, ?_⟩ <;>
    · intro h1 h2
      rw [convert_binary_step]
      simp only [h1, h2, ok_bind]
      rfl

/-- Witness for C6: all four combination shapes at concrete inputs
(`c1 > 1 AND c1 < 5` lowering to an `And` list, `c1 = 7 OR c1 = 9`
lowering to an `Or` list). -/
theorem C6_witness :
    (ScalarExpression.convert_binary
        (.binary .and
          (.binary .and (.binary .gt (.columnRef ⟨some 0, "c1"⟩) (.constant (.int32 (some 1))) .boolean)
            (.binary .lt (.columnRef ⟨some 0, "c1"⟩) (.constant (.int32 (some 5))) .boolean) .boolean)
          (.binary .and (.binary .gt (.columnRef ⟨some 0, "c1"⟩) (.constant (.int32 (some 1))) .boolean)
            (.binary .lt (.columnRef ⟨some 0, "c1"⟩) (.constant (.int32 (some 5))) .boolean) .boolean)
          .boolean) 0)
      = .ok (.binary .and
          (.binary .and (.binary .gt (.columnRef ⟨some 0, "c1"⟩) (.constant (.int32 (some 1))) .boolean)
            (.binary .lt (.columnRef ⟨some 0, "c1"⟩) (.constant (.int32 (some 5))) .boolean) .boolean)
          (.binary .and (.binary .gt (.columnRef ⟨some 0, "c1"⟩) (.constant (.int32 (some 1))) .boolean)
            (.binary .lt (.columnRef ⟨some 0, "c1"⟩) (.constant (.int32 (some 5))) .boolean) .boolean)
          .boolean,
          some (.and ([.scope (.excluded (.int32 (some 1))) .unbounded,
              .scope .unbounded (.excluded (.int32 (some 5)))]
            ++ [.scope (.excluded (.int32 (some 1))) .unbounded,
              .scope .unbounded (.excluded (.int32 (some 5)))]))) ∧
    (ScalarExpression.convert_binary
        (.binary .and
          (.binary .or (.binary .eq (.columnRef ⟨some 0, "c1"⟩) (.constant (.int32 (some 7))) .boolean)
            (.binary .eq (.columnRef ⟨some 0, "c1"⟩) (.constant (.int32 (some 9))) .boolean) .boolean)
          (.binary .or (.binary .eq (.columnRef ⟨some 0, "c1"⟩) (.constant (.int32 (some 7))) .boolean)
            (.binary .eq (.columnRef ⟨some 0, "c1"⟩) (.constant (.int32 (some 9))) .boolean) .boolean)
          .boolean) 0)
      = .ok (.binary .and
          (.binary .or (.binary .eq (.columnRef ⟨some 0, "c1"⟩) (.constant (.int32 (some 7))) .boolean)
            (.binary .eq (.columnRef ⟨some 0, "c1"⟩) (.constant (.int32 (some 9))) .boolean) .boolean)
          (.binary .or (.binary .eq (.columnRef ⟨some 0, "c1"⟩) (.constant (.int32 (some 7))) .boolean)
            (.binary .eq (.columnRef ⟨some 0, "c1"⟩) (.constant (.int32 (some 9))) .boolean) .boolean)
          .boolean,
          some (.and ([.eq (.int32 (some 7)), .eq (.int32 (some 9))]
            ++ [.eq (.int32 (some 7)), .eq (.int32 (some 9))]))) ∧
    (ScalarExpression.convert_binary
        (.binary .and
          (.binary .and (.binary .gt (.columnRef ⟨some 0, "c1"⟩) (.constant (.int32 (some 1))) .boolean)
            (.binary .lt (.columnRef ⟨some 0, "c1"⟩) (.constant (.int32 (some 5))) .boolean) .boolean)
          (.binary .or (.binary .eq (.columnRef ⟨some 0, "c1"⟩) (.constant (.int32 (some 7))) .boolean)
            (.binary .eq (.columnRef ⟨some 0, "c1"⟩) (.constant (.int32 (some 9))) .boolean) .boolean)
          .boolean) 0)
      = .ok (.binary .and
          (.binary .and (.binary .gt (.columnRef ⟨some 0, "c1"⟩) (.constant (.int32 (some 1))) .boolean)
            (.binary .lt (.columnRef ⟨some 0, "c1"⟩) (.constant (.int32 (some 5))) .boolean) .boolean)
          (.binary .or (.binary .eq (.columnRef ⟨some 0, "c1"⟩) (.constant (.int32 (some 7))) .boolean)
            (.binary .eq (.columnRef ⟨some 0, "c1"⟩) (.constant (.int32 (some 9))) .boolean) .boolean)
          .boolean,
          some (.or ([.eq (.int32 (some 7)), .eq (.int32 (some 9))]
            ++ [.scope (.excluded (.int32 (some 1))) .unbounded,
              .scope .unbounded (.excluded (.int32 (some 5)))]))) ∧
    (ScalarExpression.convert_binary
        (.binary .and
          (.binary .or (.binary .eq (.columnRef ⟨some 0, "c1"⟩) (.constant (.int32 (some 7))) .boolean)
            (.binary .eq (.columnRef ⟨some 0, "c1"⟩) (.constant (.int32 (some 9))) .boolean) .boolean)
          (.binary .and (.binary .gt (.columnRef ⟨some 0, "c1"⟩) (.constant (.int32 (some 1))) .boolean)
            (.binary .lt (.columnRef ⟨some 0, "c1"⟩) (.constant (.int32 (some 5))) .boolean) .boolean)
          .boolean) 0)
      = .ok (.binary .and
          (.binary .or (.binary .eq (.columnRef ⟨some 0, "c1"⟩) (.constant (.int32 (some 7))) .boolean)
            (.binary .eq (.columnRef ⟨some 0, "c1"⟩) (.constant (.int32 (some 9))) .boolean) .boolean)
          (.binary .and (.binary .gt (.columnRef ⟨some 0, "c1"⟩) (.constant (.int32 (some 1))) .boolean)
            (.binary .lt (.columnRef ⟨some 0, "c1"⟩) (.constant (.int32 (some 5))) .boolean) .boolean)
          .boolean,
          some (.or ([.eq (.int32 (some 7)), .eq (.int32 (some 9))]
            ++ [.scope (.excluded (.int32 (some 1))) .unbounded,
              .scope .unbounded (.excluded (.int32 (some 5)))]))) := by
  exact ⟨(C6_theorem 0 _ _ _ _ _ _ .and .boolean).1 rfl rfl,
    (C6_theorem 0 _ _ _ _ _ _ .and .boolean).2.1 rfl rfl,
    (C6_theorem 0 _ _ _ _ _ _ .and .boolean).2.2.1 rfl rfl,
    (C6_theorem 0 _ _ _ _ _ _ .and .boolean).2.2.2 rfl rfl⟩

/-- Claim C7: comparator flip when the column is on the right of the
absorbed arithmetic.  For `(k ⊕ col) cmp rhs` with `⊕` subtraction or
multiplication, `simplify` rewrites to `col cmp2 (k ⊕ rhs)` where
`cmp2` swaps `<`/`>` and `<=`/`>=`, unconditionally in the sign of `k`;
and the concrete pipeline `(1 - c1) >= 2` then `convert_binary(0)`
yields `Scope{Unbounded, Included(-1)}`. -/
theorem C7_theorem (kv rv : Int) (c : ColumnCatalog) (cmp aop : BinaryOperator)
    (hA : aop = .minus ∨ aop = .multiply)
    (hC : cmp = .gt ∨ cmp = .lt ∨ cmp = .gtEq ∨ cmp = .ltEq ∨ cmp = .eq ∨ cmp = .notEq) :
    ScalarExpression.simplify 32
        (.binary cmp (.binary aop (.constant (.int32 (some kv))) (.columnRef c) .integer)
          (.constant (.int32 (some rv))) .boolean)
      = .ok (.binary (ScalarExpression.comparison_flip cmp) (.columnRef c)
          (.binary aop (.constant (.int32 (some kv))) (.constant (.int32 (some rv))) .integer)
          .boolean) ∧
    ScalarExpression.simplify 32
        (.binary .gtEq
          (.alias (.binary .minus (.constant (.int32 (some 1)))
            (.columnRef ⟨some 0, "c1"⟩) .integer) "alias")
          (.constant (.int32 (some 2))) .boolean)
      = .ok (.binary .ltEq (.columnRef ⟨some 0, "c1"⟩)
          (.binary .minus (.constant (.int32 (some 1))) (.constant (.int32 (some 2))) .integer)
          .boolean) ∧
    ScalarExpression.convert_binary
        (.binary .ltEq (.columnRef ⟨some 0, "c1"⟩)
          (.binary .minus (.constant (.int32 (some 1))) (.constant (.int32 (some 2))) .integer)
          .boolean) 0
      = .ok (.binary .ltEq (.columnRef ⟨some 0, "c1"⟩)
            (.constant (.int32 (some (-1)))) .boolean,
          some (.scope .unbounded (.included (.int32 (some (-1)))))) := by
  refine ⟨?_, by decide, by decide⟩
  rcases hA with rfl | rfl <;>
    rcases hC with rfl | rfl | rfl | rfl | rfl | rfl <;> rfl

/-- Witness for C7 discharging the operator-set hypotheses at
`(1 - c1) >= 2`. -/
theorem C7_witness :
    ScalarExpression.simplify 32
        (.binary .gtEq (.binary .minus (.constant (.int32 (some 1)))
          (.columnRef ⟨some 0, "c1"⟩) .integer)
          (.constant (.int32 (some 2))) .boolean)
      = .ok (.binary .ltEq (.columnRef ⟨some 0, "c1"⟩)
          (.binary .minus (.constant (.int32 (some 1))) (.constant (.int32 (some 2))) .integer)
          .boolean) :=
  (C7_theorem 1 2 ⟨some 0, "c1"⟩ .gtEq .minus (Or.inl rfl)
    (Or.inr (Or.inr (Or.inl rfl)))).1

/-- Witness for C5 discharging both hypothetical conjuncts at concrete
inputs. -/
theorem C5_witness :
    (ScalarExpression.unpack_val (.isNull (.columnRef ⟨some 0, "c1"⟩) false)).2
      = some (.boolean none) ∧
    (ScalarExpression.unpack_val (.isNull (.constant (.int32 (some 1))) false)).2
      = some (.boolean (some false)) :=
  ⟨(C5_theorem (.columnRef ⟨some 0, "c1"⟩) false).2.1 rfl,
   (C5_theorem (.constant (.int32 (some 1))) false).2.2 (.int32 (some 1)) rfl⟩


/-! ### Infrastructure for Claim C3 -/

/-- `aggFold` distributes over append. -/
theorem aggFold_append (l1 l2 : List ConstantBinary) :
    ∀ st, ConstantBinary.aggFold st (l1 ++ l2)
      = (ConstantBinary.aggFold st l1 >>= fun st2 => ConstantBinary.aggFold st2 l2) := by
  induction l1 with
  | nil => intro st; rfl
  | cons b rest ih =>
    intro st
    show (ConstantBinary.aggStep st b >>= fun st2 => ConstantBinary.aggFold st2 (rest ++ l2))
      = ((ConstantBinary.aggStep st b >>= fun st2 => ConstantBinary.aggFold st2 rest)
          >>= fun st2 => ConstantBinary.aggFold st2 l2)
    rcases h : ConstantBinary.aggStep st b with e | st2
    · rfl
    · simp only [ok_bind]
      exact ih st2

/-- Membership in the modelled `HashSet::insert`. -/
theorem mem_insVal (s : List DataValue) (v w : DataValue) :
    w ∈ ConstantBinary.insVal s v ↔ (w ∈ s ∨ w = v) := by
  unfold ConstantBinary.insVal
  split
  · constructor
    · exact fun h => Or.inl h
    · rintro (h | rfl)
      · exact h
      · assumption
  · simp

/-- `insVal` preserves freedom from duplicates. -/
theorem nodup_insVal (s : List DataValue) (v : DataValue) (h : s.Nodup) :
    (ConstantBinary.insVal s v).Nodup := by
  unfold ConstantBinary.insVal
  split
  · exact h
  · rename_i hv
    simp [List.nodup_append, h, hv]

/-- The `Eq` phase of the aggregation loop: bounds are untouched and the
set accumulates the values. -/
theorem aggFold_eq_phase (l : List ConstantBinary) :
    ∀ st : ConstantBinary.AggState, (∀ b ∈ l, ∃ v, b = ConstantBinary.eq v) →
    ∃ es, ConstantBinary.aggFold st l = .ok ⟨st.scope_min, st.scope_max, es⟩ ∧
      (∀ v, v ∈ es ↔ (v ∈ st.eq_set ∨ v ∈ eqVals l)) ∧
      (st.eq_set.Nodup → es.Nodup) := by
  induction l with
  | nil =>
    intro st _
    exact ⟨st.eq_set, rfl, by simp [eqVals], fun h => h⟩
  | cons b rest ih =>
    intro st hb
    obtain ⟨v, rfl⟩ := hb b (List.mem_cons_self _ _)
    obtain ⟨es, h1, h2, h3⟩ :=
      ih ⟨st.scope_min, st.scope_max, ConstantBinary.insVal st.eq_set v⟩
        (fun b hb2 => hb b (List.mem_cons_of_mem _ hb2))
    refine ⟨es, ?_, ?_, ?_⟩
    · show (ConstantBinary.aggStep st (.eq v) >>= fun st2 => ConstantBinary.aggFold st2 rest) = _
      simpa [ConstantBinary.aggStep, ok_bind] using h1
    · intro w
      have he : eqVals (ConstantBinary.eq v :: rest) = v :: eqVals rest := rfl
      rw [h2 w, he, mem_insVal]
      simp only [List.mem_cons]
      tauto
    · intro h
      exact h3 (nodup_insVal _ _ h)

/-- The `NotEq` phase of the aggregation loop: bounds are untouched and
the accumulated values are filtered. -/
theorem aggFold_neq_phase (l : List ConstantBinary) :
    ∀ st : ConstantBinary.AggState, (∀ b ∈ l, ∃ v, b = ConstantBinary.notEq v) →
    ∃ es, ConstantBinary.aggFold st l = .ok ⟨st.scope_min, st.scope_max, es⟩ ∧
      (∀ v, v ∈ es ↔ (v ∈ st.eq_set ∧ v ∉ neqVals l)) ∧
      (st.eq_set.Nodup → es.Nodup) := by
  induction l with
  | nil =>
    intro st _
    exact ⟨st.eq_set, rfl, by simp [neqVals], fun h => h⟩
  | cons b rest ih =>
    intro st hb
    obtain ⟨v, rfl⟩ := hb b (List.mem_cons_self _ _)
    obtain ⟨es, h1, h2, h3⟩ :=
      ih ⟨st.scope_min, st.scope_max, st.eq_set.filter (fun w => w ≠ v)⟩
        (fun b hb2 => hb b (List.mem_cons_of_mem _ hb2))
    refine ⟨es, ?_, ?_, ?_⟩
    · show (ConstantBinary.aggStep st (.notEq v) >>= fun st2 => ConstantBinary.aggFold st2 rest) = _
      simpa [ConstantBinary.aggStep, ok_bind] using h1
    · intro w
      rw [h2 w]
      simp [neqVals, List.mem_filter]
      tauto
    · intro h
      exact h3 (h.filter _)

/-- The `Scope` phase when some `Eq` value survived: every scope is
skipped and the state is unchanged. -/
theorem aggFold_scope_skip (l : List ConstantBinary) :
    ∀ st : ConstantBinary.AggState, st.eq_set ≠ [] →
    (∀ b ∈ l, ∃ mn mx, b = ConstantBinary.scope mn mx) →
    ConstantBinary.aggFold st l = .ok st := by
  induction l with
  | nil => intro st _ _; rfl
  | cons b rest ih =>
    intro st hne hb
    obtain ⟨mn, mx, rfl⟩ := hb b (List.mem_cons_self _ _)
    show (ConstantBinary.aggStep st (.scope mn mx) >>= fun st2 => ConstantBinary.aggFold st2 rest) = _
    rw [ConstantBinary.aggStep]
    simp only [hne, ne_eq, not_false_eq_true, if_true, ite_true, ok_bind]
    exact ih st hne (fun b hb2 => hb b (List.mem_cons_of_mem _ hb2))

/-- The `Scope` phase when no `Eq` value survived: the bounds are the
two tightening folds over the scopes' bound pairs, and the set stays
empty. -/
theorem aggFold_scope_tighten (l : List ConstantBinary) :
    ∀ mn mx, (∀ b ∈ l, ∃ bmn bmx, b = ConstantBinary.scope bmn bmx) →
    ConstantBinary.aggFold ⟨mn, mx, []⟩ l
      = .ok ⟨(scopeBds l).foldl (fun acc p => ConstantBinary.tightenMin acc p.1) mn,
             (scopeBds l).foldl (fun acc p => ConstantBinary.tightenMax acc p.2) mx, []⟩ := by
  induction l with
  | nil => intro mn mx _; rfl
  | cons b rest ih =>
    intro mn mx hb
    obtain ⟨bmn, bmx, rfl⟩ := hb b (List.mem_cons_self _ _)
    show (ConstantBinary.aggStep ⟨mn, mx, []⟩ (.scope bmn bmx)
        >>= fun st2 => ConstantBinary.aggFold st2 rest) = _
    rw [ConstantBinary.aggStep]
    simp only [ne_eq, not_true_eq_false, if_false, ite_false, ok_bind]
    have hbds : scopeBds (ConstantBinary.scope bmn bmx :: rest) = (bmn, bmx) :: scopeBds rest := rfl
    rw [hbds]
    exact ih _ _ (fun b hb2 => hb b (List.mem_cons_of_mem _ hb2))


/-- `tightenMin` returns one of its arguments. -/
theorem tightenMin_eq_or (a b : VBound) :
    ConstantBinary.tightenMin a b = a ∨ ConstantBinary.tightenMin a b = b := by
  unfold ConstantBinary.tightenMin
  rcases ConstantBinary.bound_compared a b true with _ | o
  · exact Or.inl rfl
  · dsimp only
    split_ifs
    · exact Or.inr rfl
    · exact Or.inl rfl

/-- `tightenMax` returns one of its arguments. -/
theorem tightenMax_eq_or (a b : VBound) :
    ConstantBinary.tightenMax a b = a ∨ ConstantBinary.tightenMax a b = b := by
  unfold ConstantBinary.tightenMax
  rcases ConstantBinary.bound_compared a b false with _ | o
  · exact Or.inl rfl
  · dsimp only
    split_ifs
    · exact Or.inr rfl
    · exact Or.inl rfl

/-- On integer bounds, tightening the minimum computes the intersection
of lower bounds. -/
theorem satMin_tightenMin (a b : VBound) (ha : IntB a) (hb : IntB b) (n : Int) :
    satMin n (ConstantBinary.tightenMin a b) ↔ (satMin n a ∧ satMin n b) := by
  rcases a with _ | va | va <;> rcases b with _ | vb | vb <;>
    simp only [IntB, IntV] at ha hb
  · simp [ConstantBinary.tightenMin, ConstantBinary.bound_compared, satMin]
  · obtain ⟨k2, rfl⟩ := hb
    simp [ConstantBinary.tightenMin, ConstantBinary.bound_compared, satMin]
  · obtain ⟨k2, rfl⟩ := hb
    simp [ConstantBinary.tightenMin, ConstantBinary.bound_compared, satMin]
  · obtain ⟨k1, rfl⟩ := ha
    simp [ConstantBinary.tightenMin, ConstantBinary.bound_compared, satMin]
  · obtain ⟨k1, rfl⟩ := ha
    obtain ⟨k2, rfl⟩ := hb
    rcases lt_trichotomy k1 k2 with h | h | h
    · simp [ConstantBinary.tightenMin, ConstantBinary.bound_compared, DataValue.pcmp,
        DataValue.cmpInt, h, satMin]
      omega
    · subst h
      simp [ConstantBinary.tightenMin, ConstantBinary.bound_compared, DataValue.pcmp,
        DataValue.cmpInt, satMin]
    · have h1 : ¬ k1 < k2 := by omega
      have h2 : ¬ k1 = k2 := by omega
      simp [ConstantBinary.tightenMin, ConstantBinary.bound_compared, DataValue.pcmp,
        DataValue.cmpInt, h1, h2, satMin]
      omega
  · obtain ⟨k1, rfl⟩ := ha
    obtain ⟨k2, rfl⟩ := hb
    rcases lt_trichotomy k1 k2 with h | h | h
    · simp [ConstantBinary.tightenMin, ConstantBinary.bound_compared, DataValue.pcmp,
        DataValue.cmpInt, h, satMin, Ordering.then]
      omega
    · subst h
      simp [ConstantBinary.tightenMin, ConstantBinary.bound_compared, DataValue.pcmp,
        DataValue.cmpInt, satMin, Ordering.then]
      omega
    · have h1 : ¬ k1 < k2 := by omega
      have h2 : ¬ k1 = k2 := by omega
      simp [ConstantBinary.tightenMin, ConstantBinary.bound_compared, DataValue.pcmp,
        DataValue.cmpInt, h1, h2, satMin, Ordering.then]
      omega
  · obtain ⟨k1, rfl⟩ := ha
    simp [ConstantBinary.tightenMin, ConstantBinary.bound_compared, satMin]
  · obtain ⟨k1, rfl⟩ := ha
    obtain ⟨k2, rfl⟩ := hb
    rcases lt_trichotomy k1 k2 with h | h | h
    · simp [ConstantBinary.tightenMin, ConstantBinary.bound_compared, DataValue.pcmp,
        DataValue.cmpInt, h, satMin, Ordering.then]
      omega
    · subst h
      simp [ConstantBinary.tightenMin, ConstantBinary.bound_compared, DataValue.pcmp,
        DataValue.cmpInt, satMin, Ordering.then]
      omega
    · have h1 : ¬ k1 < k2 := by omega
      have h2 : ¬ k1 = k2 := by omega
      simp [ConstantBinary.tightenMin, ConstantBinary.bound_compared, DataValue.pcmp,
        DataValue.cmpInt, h1, h2, satMin, Ordering.then]
      omega
  · obtain ⟨k1, rfl⟩ := ha
    obtain ⟨k2, rfl⟩ := hb
    rcases lt_trichotomy k1 k2 with h | h | h
    · simp [ConstantBinary.tightenMin, ConstantBinary.bound_compared, DataValue.pcmp,
        DataValue.cmpInt, h, satMin]
      omega
    · subst h
      simp [ConstantBinary.tightenMin, ConstantBinary.bound_compared, DataValue.pcmp,
        DataValue.cmpInt, satMin]
    · have h1 : ¬ k1 < k2 := by omega
      have h2 : ¬ k1 = k2 := by omega
      simp [ConstantBinary.tightenMin, ConstantBinary.bound_compared, DataValue.pcmp,
        DataValue.cmpInt, h1, h2, satMin]
      omega

/-- On integer bounds, tightening the maximum computes the intersection
of upper bounds. -/
theorem satMax_tightenMax (a b : VBound) (ha : IntB a) (hb : IntB b) (n : Int) :
    satMax n (ConstantBinary.tightenMax a b) ↔ (satMax n a ∧ satMax n b) := by
  rcases a with _ | va | va <;> rcases b with _ | vb | vb <;>
    simp only [IntB, IntV] at ha hb
  · simp [ConstantBinary.tightenMax, ConstantBinary.bound_compared, satMax]
  · obtain ⟨k2, rfl⟩ := hb
    simp [ConstantBinary.tightenMax, ConstantBinary.bound_compared, satMax,
      Ordering.swap]
  · obtain ⟨k2, rfl⟩ := hb
    simp [ConstantBinary.tightenMax, ConstantBinary.bound_compared, satMax,
      Ordering.swap]
  · obtain ⟨k1, rfl⟩ := ha
    simp [ConstantBinary.tightenMax, ConstantBinary.bound_compared, satMax,
      Ordering.swap]
  · obtain ⟨k1, rfl⟩ := ha
    obtain ⟨k2, rfl⟩ := hb
    rcases lt_trichotomy k1 k2 with h | h | h
    · have h1 : ¬ k1 = k2 := by omega
      simp [ConstantBinary.tightenMax, ConstantBinary.bound_compared, DataValue.pcmp,
        DataValue.cmpInt, h, h1, satMax]
      omega
    · subst h
      simp [ConstantBinary.tightenMax, ConstantBinary.bound_compared, DataValue.pcmp,
        DataValue.cmpInt, satMax]
    · have h1 : ¬ k1 < k2 := by omega
      have h2 : ¬ k1 = k2 := by omega
      simp [ConstantBinary.tightenMax, ConstantBinary.bound_compared, DataValue.pcmp,
        DataValue.cmpInt, h1, h2, satMax]
      omega
  · obtain ⟨k1, rfl⟩ := ha
    obtain ⟨k2, rfl⟩ := hb
    rcases lt_trichotomy k1 k2 with h | h | h
    · have h1 : ¬ k1 = k2 := by omega
      simp [ConstantBinary.tightenMax, ConstantBinary.bound_compared, DataValue.pcmp,
        DataValue.cmpInt, h, h1, satMax, Ordering.then, Ordering.swap]
      omega
    · subst h
      simp [ConstantBinary.tightenMax, ConstantBinary.bound_compared, DataValue.pcmp,
        DataValue.cmpInt, satMax, Ordering.then, Ordering.swap]
      omega
    · have h1 : ¬ k1 < k2 := by omega
      have h2 : ¬ k1 = k2 := by omega
      simp [ConstantBinary.tightenMax, ConstantBinary.bound_compared, DataValue.pcmp,
        DataValue.cmpInt, h1, h2, satMax, Ordering.then, Ordering.swap]
      omega
  · obtain ⟨k1, rfl⟩ := ha
    simp [ConstantBinary.tightenMax, ConstantBinary.bound_compared, satMax,
      Ordering.swap]
  · obtain ⟨k1, rfl⟩ := ha
    obtain ⟨k2, rfl⟩ := hb
    rcases lt_trichotomy k1 k2 with h | h | h
    · have h1 : ¬ k1 = k2 := by omega
      simp [ConstantBinary.tightenMax, ConstantBinary.bound_compared, DataValue.pcmp,
        DataValue.cmpInt, h, h1, satMax, Ordering.then, Ordering.swap]
      omega
    · subst h
      simp [ConstantBinary.tightenMax, ConstantBinary.bound_compared, DataValue.pcmp,
        DataValue.cmpInt, satMax, Ordering.then, Ordering.swap]
      omega
    · have h1 : ¬ k1 < k2 := by omega
      have h2 : ¬ k1 = k2 := by omega
      simp [ConstantBinary.tightenMax, ConstantBinary.bound_compared, DataValue.pcmp,
        DataValue.cmpInt, h1, h2, satMax, Ordering.then, Ordering.swap]
      omega
  · obtain ⟨k1, rfl⟩ := ha
    obtain ⟨k2, rfl⟩ := hb
    rcases lt_trichotomy k1 k2 with h | h | h
    · have h1 : ¬ k1 = k2 := by omega
      simp [ConstantBinary.tightenMax, ConstantBinary.bound_compared, DataValue.pcmp,
        DataValue.cmpInt, h, h1, satMax]
      omega
    · subst h
      simp [ConstantBinary.tightenMax, ConstantBinary.bound_compared, DataValue.pcmp,
        DataValue.cmpInt, satMax]
    · have h1 : ¬ k1 < k2 := by omega
      have h2 : ¬ k1 = k2 := by omega
      simp [ConstantBinary.tightenMax, ConstantBinary.bound_compared, DataValue.pcmp,
        DataValue.cmpInt, h1, h2, satMax]
      omega

/-- The minimum-tightening fold computes the intersection of all lower
bounds. -/
theorem satMin_foldMin (ps : List (VBound × VBound)) :
    ∀ acc, IntB acc → (∀ p ∈ ps, IntB p.1) → ∀ n : Int,
    satMin n (ps.foldl (fun a p => ConstantBinary.tightenMin a p.1) acc)
      ↔ (satMin n acc ∧ ∀ p ∈ ps, satMin n p.1) := by
  induction ps with
  | nil => intro acc _ _ n; simp
  | cons p rest ih =>
    intro acc hacc hp n
    have hint : IntB (ConstantBinary.tightenMin acc p.1) := by
      rcases tightenMin_eq_or acc p.1 with h | h <;> rw [h]
      · exact hacc
      · exact hp p (List.mem_cons_self _ _)
    rw [List.foldl_cons,
      ih _ hint (fun q hq => hp q (List.mem_cons_of_mem _ hq)) n,
      satMin_tightenMin acc p.1 hacc (hp p (List.mem_cons_self _ _)) n]
    simp only [List.mem_cons]
    constructor
    · rintro ⟨⟨h1, h2⟩, h3⟩
      exact ⟨h1, fun q hq => hq.elim (fun e => e ▸ h2) (h3 q)⟩
    · rintro ⟨h1, h2⟩
      exact ⟨⟨h1, h2 p (Or.inl rfl)⟩, fun q hq => h2 q (Or.inr hq)⟩

/-- The maximum-tightening fold computes the intersection of all upper
bounds. -/
theorem satMax_foldMax (ps : List (VBound × VBound)) :
    ∀ acc, IntB acc → (∀ p ∈ ps, IntB p.2) → ∀ n : Int,
    satMax n (ps.foldl (fun a p => ConstantBinary.tightenMax a p.2) acc)
      ↔ (satMax n acc ∧ ∀ p ∈ ps, satMax n p.2) := by
  induction ps with
  | nil => intro acc _ _ n; simp
  | cons p rest ih =>
    intro acc hacc hp n
    have hint : IntB (ConstantBinary.tightenMax acc p.2) := by
      rcases tightenMax_eq_or acc p.2 with h | h <;> rw [h]
      · exact hacc
      · exact hp p (List.mem_cons_self _ _)
    rw [List.foldl_cons,
      ih _ hint (fun q hq => hp q (List.mem_cons_of_mem _ hq)) n,
      satMax_tightenMax acc p.2 hacc (hp p (List.mem_cons_self _ _)) n]
    simp only [List.mem_cons]
    constructor
    · rintro ⟨⟨h1, h2⟩, h3⟩
      exact ⟨h1, fun q hq => hq.elim (fun e => e ▸ h2) (h3 q)⟩
    · rintro ⟨h1, h2⟩
      exact ⟨⟨h1, h2 p (Or.inl rfl)⟩, fun q hq => h2 q (Or.inr hq)⟩


/-- Elements of the key-0 bucket do not exist for leaf-only input. -/
theorem filter_key0_nil (xs : List ConstantBinary) (hsh : ∀ b ∈ xs, LeafInt b) :
    xs.filter (fun b => ConstantBinary.aggKey b = 0) = [] := by
  rw [List.filter_eq_nil_iff]
  intro b hb
  have hl := hsh b hb
  cases b <;> simp_all [LeafInt, ConstantBinary.aggKey]

/-- Elements of the key-1 bucket are `Eq`. -/
theorem filter_key1_shape (xs : List ConstantBinary) :
    ∀ b ∈ xs.filter (fun b => ConstantBinary.aggKey b = 1), ∃ v, b = ConstantBinary.eq v := by
  intro b hb
  have h := (List.mem_filter.mp hb).2
  cases b <;> first | exact ⟨_, rfl⟩ | simp [ConstantBinary.aggKey] at h

/-- Elements of the key-2 bucket are `NotEq`. -/
theorem filter_key2_shape (xs : List ConstantBinary) :
    ∀ b ∈ xs.filter (fun b => ConstantBinary.aggKey b = 2), ∃ v, b = ConstantBinary.notEq v := by
  intro b hb
  have h := (List.mem_filter.mp hb).2
  cases b <;> first | exact ⟨_, rfl⟩ | simp [ConstantBinary.aggKey] at h

/-- Elements of the key-3 bucket are `Scope`. -/
theorem filter_key3_shape (xs : List ConstantBinary) :
    ∀ b ∈ xs.filter (fun b => ConstantBinary.aggKey b = 3),
      ∃ mn mx, b = ConstantBinary.scope mn mx := by
  intro b hb
  have h := (List.mem_filter.mp hb).2
  cases b <;> first | exact ⟨_, _, rfl⟩ | simp [ConstantBinary.aggKey] at h

/-- The key-1 bucket carries exactly the `Eq` values of the list. -/
theorem eqVals_filter_key1 (xs : List ConstantBinary) :
    eqVals (xs.filter (fun b => ConstantBinary.aggKey b = 1)) = eqVals xs := by
  induction xs with
  | nil => rfl
  | cons b rest ih =>
    cases b <;> simp [eqVals, ConstantBinary.aggKey, List.filter_cons] <;>
      simpa [eqVals] using ih

/-- The key-2 bucket carries exactly the `NotEq` values of the list. -/
theorem neqVals_filter_key2 (xs : List ConstantBinary) :
    neqVals (xs.filter (fun b => ConstantBinary.aggKey b = 2)) = neqVals xs := by
  induction xs with
  | nil => rfl
  | cons b rest ih =>
    cases b <;> simp [neqVals, ConstantBinary.aggKey, List.filter_cons] <;>
      simpa [neqVals] using ih

/-- The key-3 bucket carries exactly the scope bound pairs of the list. -/
theorem scopeBds_filter_key3 (xs : List ConstantBinary) :
    scopeBds (xs.filter (fun b => ConstantBinary.aggKey b = 3)) = scopeBds xs := by
  induction xs with
  | nil => rfl
  | cons b rest ih =>
    cases b <;> simp [scopeBds, ConstantBinary.aggKey, List.filter_cons] <;>
      simpa [scopeBds] using ih

/-- `eqLe` on integer values is the integer order. -/
theorem eqLe_int (k1 k2 : Int) :
    ConstantBinary.eqLe (.int32 (some k1)) (.int32 (some k2)) = true ↔ k1 ≤ k2 := by
  simp [ConstantBinary.eqLe, DataValue.pcmp, DataValue.cmpInt]
  omega

/-- The insertion helper of `sortVals` permutes its input. -/
theorem sortVals_go_perm (a : DataValue) : ∀ l, (ConstantBinary.sortVals.go a l).Perm (a :: l) := by
  intro l
  induction l with
  | nil => exact List.Perm.refl _
  | cons b t ih =>
    show (if ConstantBinary.eqLe a b = true then a :: b :: t
        else b :: ConstantBinary.sortVals.go a t).Perm (a :: b :: t)
    split_ifs
    · exact List.Perm.refl _
    · exact (ih.cons b).trans (List.Perm.swap a b t)

/-- `sortVals` permutes its input. -/
theorem sortVals_perm : ∀ l, (ConstantBinary.sortVals l).Perm l := by
  intro l
  induction l with
  | nil => exact List.Perm.refl _
  | cons a t ih =>
    exact (sortVals_go_perm a (ConstantBinary.sortVals t)).trans (ih.cons a)

/-- Insertion preserves sortedness over integer values. -/
theorem sortVals_go_pairwise (a : DataValue) :
    ∀ l, IntV a → (∀ x ∈ l, IntV x) →
    l.Pairwise (fun x y => ConstantBinary.eqLe x y = true) →
    (ConstantBinary.sortVals.go a l).Pairwise (fun x y => ConstantBinary.eqLe x y = true) := by
  intro l
  induction l with
  | nil =>
    intro _ _ _
    simp [ConstantBinary.sortVals.go]
  | cons b t ih =>
    intro ha hx hp
    obtain ⟨hb1, hp2⟩ := List.pairwise_cons.mp hp
    show (if ConstantBinary.eqLe a b = true then a :: b :: t
        else b :: ConstantBinary.sortVals.go a t).Pairwise _
    obtain ⟨ka, rfl⟩ := ha
    obtain ⟨kb, rfl⟩ := hx _ (List.mem_cons_self _ _)
    split_ifs with h
    · refine List.Pairwise.cons ?_ hp
      intro y hy
      rcases List.mem_cons.mp hy with rfl | hy2
      · exact h
      · have h0 := hb1 y hy2
        obtain ⟨ky, rfl⟩ := hx y (List.mem_cons_of_mem _ hy2)
        have h1 := (eqLe_int ka kb).mp h
        have h2 := (eqLe_int kb ky).mp h0
        exact (eqLe_int ka ky).mpr (by omega)
    · refine List.Pairwise.cons ?_
        (ih ⟨ka, rfl⟩ (fun x hx2 => hx x (List.mem_cons_of_mem _ hx2)) hp2)
      intro y hy
      have hmem : y ∈ .int32 (some ka) :: t := (sortVals_go_perm _ t).mem_iff.mp hy
      rcases List.mem_cons.mp hmem with rfl | hy2
      · have h1 : ¬ ka ≤ kb := fun hc => h ((eqLe_int ka kb).mpr hc)
        exact (eqLe_int kb ka).mpr (by omega)
      · exact hb1 y hy2

/-- `sortVals` sorts integer values. -/
theorem sortVals_pairwise :
    ∀ l, (∀ x ∈ l, IntV x) →
    (ConstantBinary.sortVals l).Pairwise (fun x y => ConstantBinary.eqLe x y = true) := by
  intro l
  induction l with
  | nil => intro _; simp [ConstantBinary.sortVals]
  | cons a t ih =>
    intro hx
    show (ConstantBinary.sortVals.go a (ConstantBinary.sortVals t)).Pairwise _
    refine sortVals_go_pairwise a _ (hx a (List.mem_cons_self _ _)) ?_
      (ih (fun x hx2 => hx x (List.mem_cons_of_mem _ hx2)))
    intro x hx2
    exact hx x (List.mem_cons_of_mem _ ((sortVals_perm t).mem_iff.mp hx2))


/-- Membership in the `Eq` values of a list. -/
theorem mem_eqVals (xs : List ConstantBinary) (v : DataValue) :
    v ∈ eqVals xs ↔ ConstantBinary.eq v ∈ xs := by
  simp only [eqVals, List.mem_filterMap]
  constructor
  · rintro ⟨b, hb, he⟩
    cases b <;> simp at he
    subst he
    exact hb
  · intro h
    exact ⟨.eq v, h, rfl⟩

/-- Membership in the scope bound pairs of a list. -/
theorem mem_scopeBds (xs : List ConstantBinary) (p : VBound × VBound)
    (h : p ∈ scopeBds xs) : ConstantBinary.scope p.1 p.2 ∈ xs := by
  obtain ⟨mn, mx⟩ := p
  simp only [scopeBds, List.mem_filterMap] at h
  obtain ⟨b, hb, he⟩ := h
  cases b <;> simp at he
  obtain ⟨rfl, rfl⟩ := he
  exact hb

/-- Claim C3: And-normal form of `scope_aggregation`.  For an `And` list
of `Scope`/`Eq`/`NotEq` leaves over the integer domain, after
`scope_aggregation` succeeds the element list is exactly one of:
(i) a non-empty strictly sorted (hence duplicate-free) list of the `Eq`
values surviving removal by the `NotEq` values, whenever some `Eq` value
survives; (ii) a single `Scope` whose bounds are the tightest (the
intersection of the input scopes); or (iii) the empty list. -/
theorem C3_theorem (xs : List ConstantBinary) (hsh : ∀ b ∈ xs, LeafInt b) :
    ∃ ys, ConstantBinary.scope_aggregation (.and xs) = .ok (.and ys) ∧
      ((∃ v, v ∈ eqVals xs ∧ v ∉ neqVals xs) →
        ∃ vs, ys = vs.map ConstantBinary.eq ∧ vs ≠ [] ∧
          List.Chain' (fun a b => DataValue.pcmp a b = some .lt) vs ∧
          (∀ v, v ∈ vs ↔ (v ∈ eqVals xs ∧ v ∉ neqVals xs))) ∧
      ((¬ ∃ v, v ∈ eqVals xs ∧ v ∉ neqVals xs) →
        ys = [] ∨ ∃ mn mx, ys = [.scope mn mx] ∧
          ∀ n : Int, (satMin n mn ∧ satMax n mx) ↔
            ∀ p ∈ scopeBds xs, (satMin n p.1 ∧ satMax n p.2)) := by
  have h0 := filter_key0_nil xs hsh
  obtain ⟨es1, he1, hm1, hn1⟩ :=
    aggFold_eq_phase (xs.filter (fun b => ConstantBinary.aggKey b = 1))
      ⟨.unbounded, .unbounded, []⟩ (filter_key1_shape xs)
  have he1a : ConstantBinary.aggFold ⟨.unbounded, .unbounded, []⟩
      (xs.filter (fun b => ConstantBinary.aggKey b = 1))
      = .ok ⟨.unbounded, .unbounded, es1⟩ := he1
  obtain ⟨es2, he2, hm2, hn2⟩ :=
    aggFold_neq_phase (xs.filter (fun b => ConstantBinary.aggKey b = 2))
      ⟨.unbounded, .unbounded, es1⟩ (filter_key2_shape xs)
  have he2a : ConstantBinary.aggFold ⟨.unbounded, .unbounded, es1⟩
      (xs.filter (fun b => ConstantBinary.aggKey b = 2))
      = .ok ⟨.unbounded, .unbounded, es2⟩ := he2
  have hmem : ∀ v, v ∈ es2 ↔ (v ∈ eqVals xs ∧ v ∉ neqVals xs) := by
    intro v
    rw [hm2 v, hm1 v, ← eqVals_filter_key1 xs, ← neqVals_filter_key2 xs]
    simp
  have hnodup2 : es2.Nodup := hn2 (hn1 List.nodup_nil)
  have hint2 : ∀ v ∈ es2, IntV v := by
    intro v hv
    have h1 := ((hmem v).mp hv).1
    have h2 := (mem_eqVals xs v).mp h1
    exact hsh _ h2
  have hsorted : ConstantBinary.aggSorted xs
      = xs.filter (fun b => ConstantBinary.aggKey b = 1)
        ++ (xs.filter (fun b => ConstantBinary.aggKey b = 2)
          ++ xs.filter (fun b => ConstantBinary.aggKey b = 3)) := by
    rw [ConstantBinary.aggSorted, h0]
    simp [List.append_assoc]
  have hfold2 : ConstantBinary.aggFold ⟨.unbounded, .unbounded, []⟩
      (ConstantBinary.aggSorted xs)
      = ConstantBinary.aggFold ⟨.unbounded, .unbounded, es2⟩
        (xs.filter (fun b => ConstantBinary.aggKey b = 3)) := by
    rw [hsorted, aggFold_append, he1a, ok_bind, aggFold_append, he2a, ok_bind]
  by_cases hs : es2 = []
  · -- no survivor: scopes are tightened
    subst hs
    have hfin := aggFold_scope_tighten
      (xs.filter (fun b => ConstantBinary.aggKey b = 3)) .unbounded .unbounded
      (filter_key3_shape xs)
    have hIntB : ∀ p ∈ scopeBds xs, IntB p.1 ∧ IntB p.2 := by
      intro p hp
      exact hsh _ (mem_scopeBds xs p hp)
    by_cases hB : ((scopeBds (xs.filter (fun b => ConstantBinary.aggKey b = 3))).foldl
          (fun acc p => ConstantBinary.tightenMin acc p.1) .unbounded = VBound.unbounded
        ∧ (scopeBds (xs.filter (fun b => ConstantBinary.aggKey b = 3))).foldl
          (fun acc p => ConstantBinary.tightenMax acc p.2) .unbounded = VBound.unbounded)
    · refine ⟨[], ?_, ?_, ?_⟩
      · show (fun l => ConstantBinary.and l) <$> ConstantBinary._scope_aggregation xs = _
        rw [ConstantBinary._scope_aggregation, hfold2, hfin, ok_bind]
        dsimp only
        simp [ConstantBinary.sortVals, hB.1, hB.2]
      · rintro ⟨v, hv1, hv2⟩
        exact absurd ((hmem v).mpr ⟨hv1, hv2⟩) (List.not_mem_nil v)
      · intro _
        exact Or.inl rfl
    · refine ⟨[.scope
          ((scopeBds (xs.filter (fun b => ConstantBinary.aggKey b = 3))).foldl
            (fun acc p => ConstantBinary.tightenMin acc p.1) .unbounded)
          ((scopeBds (xs.filter (fun b => ConstantBinary.aggKey b = 3))).foldl
            (fun acc p => ConstantBinary.tightenMax acc p.2) .unbounded)], ?_, ?_, ?_⟩
      · show (fun l => ConstantBinary.and l) <$> ConstantBinary._scope_aggregation xs = _
        rw [ConstantBinary._scope_aggregation, hfold2, hfin, ok_bind]
        dsimp only
        rw [if_neg (by simp [ConstantBinary.sortVals])]
        rw [if_pos (by simpa using hB)]
        rfl
      · rintro ⟨v, hv1, hv2⟩
        exact absurd ((hmem v).mpr ⟨hv1, hv2⟩) (List.not_mem_nil v)
      · intro _
        refine Or.inr ⟨_, _, rfl, ?_⟩
        intro n
        rw [satMin_foldMin (scopeBds (xs.filter (fun b => ConstantBinary.aggKey b = 3)))
            VBound.unbounded (by exact trivial)
            (by
              intro p hp
              rw [scopeBds_filter_key3] at hp
              exact (hIntB p hp).1) n,
          satMax_foldMax (scopeBds (xs.filter (fun b => ConstantBinary.aggKey b = 3)))
            VBound.unbounded (by exact trivial)
            (by
              intro p hp
              rw [scopeBds_filter_key3] at hp
              exact (hIntB p hp).2) n,
          scopeBds_filter_key3]
        constructor
        · rintro ⟨⟨_, h1⟩, ⟨_, h2⟩⟩
          exact fun p hp => ⟨h1 p hp, h2 p hp⟩
        · intro h
          exact ⟨⟨trivial, fun p hp => (h p hp).1⟩, ⟨trivial, fun p hp => (h p hp).2⟩⟩
  · -- a survivor exists: scopes are skipped, Eqs sorted
    have hfin := aggFold_scope_skip
      (xs.filter (fun b => ConstantBinary.aggKey b = 3))
      ⟨.unbounded, .unbounded, es2⟩ (by simpa using hs) (filter_key3_shape xs)
    have hsv : ConstantBinary.sortVals es2 ≠ [] := by
      intro hh
      have hp := sortVals_perm es2
      rw [hh] at hp
      exact hs hp.symm.eq_nil
    refine ⟨(ConstantBinary.sortVals es2).map ConstantBinary.eq, ?_, ?_, ?_⟩
    · show (fun l => ConstantBinary.and l) <$> ConstantBinary._scope_aggregation xs = _
      rw [ConstantBinary._scope_aggregation, hfold2, hfin, ok_bind]
      dsimp only
      rw [if_pos (by simp [List.isEmpty_iff, hsv])]
      rfl
    · intro _
      refine ⟨ConstantBinary.sortVals es2, rfl, hsv, ?_, ?_⟩
      · have hpw := sortVals_pairwise es2 hint2
        have hnd : (ConstantBinary.sortVals es2).Nodup :=
          ((sortVals_perm es2).nodup_iff).mpr hnodup2
        have hcomb := List.Pairwise.and hpw hnd
        refine List.Pairwise.chain' (List.Pairwise.imp_of_mem ?_ hcomb)
        intro a b ha hb hab
        obtain ⟨k1, rfl⟩ := hint2 a ((sortVals_perm es2).mem_iff.mp ha)
        obtain ⟨k2, rfl⟩ := hint2 b ((sortVals_perm es2).mem_iff.mp hb)
        have h1 := (eqLe_int k1 k2).mp hab.1
        have h2 : k1 ≠ k2 := by
          intro hh
          exact hab.2 (by rw [hh])
        simp [DataValue.pcmp, DataValue.cmpInt]
        omega
      · intro v
        rw [(sortVals_perm es2).mem_iff, hmem v]
    · intro hno
      obtain ⟨v, hv⟩ := List.exists_mem_of_ne_nil es2 hs
      exact absurd ⟨v, (hmem v).mp hv⟩ hno

/-- Witness for C3 at the spec's A1 and A3 scenarios (both branches). -/
theorem C3_witness :
    (∃ ys, ConstantBinary.scope_aggregation
        (.and [.eq (.int32 (some 0)), .notEq (.int32 (some 1)),
          .eq (.int32 (some 2)), .notEq (.int32 (some 3))]) = .ok (.and ys)) ∧
    (∃ ys, ConstantBinary.scope_aggregation
        (.and [.scope (.excluded (.int32 (some 0))) (.included (.int32 (some 3))),
          .scope (.included (.int32 (some 1))) (.excluded (.int32 (some 2)))])
      = .ok (.and ys)) := by
  constructor
  · obtain ⟨ys, h1, -, -⟩ := C3_theorem
      [.eq (.int32 (some 0)), .notEq (.int32 (some 1)),
        .eq (.int32 (some 2)), .notEq (.int32 (some 3))]
      (by
        intro b hb
        simp only [List.mem_cons, List.not_mem_nil, or_false] at hb
        rcases hb with rfl | rfl | rfl | rfl <;> exact ⟨_, rfl⟩)
    exact ⟨ys, h1⟩
  · obtain ⟨ys, h1, -, -⟩ := C3_theorem
      [.scope (.excluded (.int32 (some 0))) (.included (.int32 (some 3))),
        .scope (.included (.int32 (some 1))) (.excluded (.int32 (some 2)))]
      (by
        intro b hb
        simp only [List.mem_cons, List.not_mem_nil, or_false] at hb
        rcases hb with rfl | rfl <;> exact ⟨⟨_, rfl⟩, ⟨_, rfl⟩⟩)
    exact ⟨ys, h1⟩


/-! ### Infrastructure for Claim C4 -/

/-- `bound_compared` with `is_min = true` on integer bounds is the
lexicographic comparison of the encodings. -/
theorem bcmp_min_char (a b : VBound) (ha : IntB a) (hb : IntB b) :
    ConstantBinary.bound_compared a b true = some (pairCmp (encMin a) (encMin b)) := by
  rcases a with _ | va | va <;> rcases b with _ | vb | vb <;>
    simp only [IntB, IntV] at ha hb
  · simp [ConstantBinary.bound_compared, encMin, pairCmp, DataValue.cmpInt]
  · obtain ⟨k2, rfl⟩ := hb
    simp [ConstantBinary.bound_compared, encMin, pairCmp, DataValue.cmpInt]
  · obtain ⟨k2, rfl⟩ := hb
    simp [ConstantBinary.bound_compared, encMin, pairCmp, DataValue.cmpInt]
  · obtain ⟨k1, rfl⟩ := ha
    simp [ConstantBinary.bound_compared, encMin, pairCmp, DataValue.cmpInt]
  · obtain ⟨k1, rfl⟩ := ha
    obtain ⟨k2, rfl⟩ := hb
    rcases lt_trichotomy k1 k2 with h | h | h
    · simp [ConstantBinary.bound_compared, encMin, pairCmp, DataValue.pcmp,
        DataValue.cmpInt, h, (show 2 * k1 < 2 * k2 by omega)]
    · subst h
      simp [ConstantBinary.bound_compared, encMin, pairCmp, DataValue.pcmp, DataValue.cmpInt]
    · have h1 : ¬ k1 < k2 := by omega
      have h2 : ¬ k1 = k2 := by omega
      have h3 : ¬ 2 * k1 < 2 * k2 := by omega
      have h4 : ¬ (2 : Int) * k1 = 2 * k2 := by omega
      simp [ConstantBinary.bound_compared, encMin, pairCmp, DataValue.pcmp,
        DataValue.cmpInt, h1, h2, h3, h4]
  · obtain ⟨k1, rfl⟩ := ha
    obtain ⟨k2, rfl⟩ := hb
    rcases lt_trichotomy k1 k2 with h | h | h
    · simp [ConstantBinary.bound_compared, encMin, pairCmp, DataValue.pcmp,
        DataValue.cmpInt, h, Ordering.then, (show 2 * k1 < 2 * k2 + 1 by omega)]
    · subst h
      simp [ConstantBinary.bound_compared, encMin, pairCmp, DataValue.pcmp,
        DataValue.cmpInt, Ordering.then, (show 2 * k1 < 2 * k1 + 1 by omega)]
    · have h1 : ¬ k1 < k2 := by omega
      have h2 : ¬ k1 = k2 := by omega
      have h3 : ¬ 2 * k1 < 2 * k2 + 1 := by omega
      have h4 : ¬ (2 : Int) * k1 = 2 * k2 + 1 := by omega
      simp [ConstantBinary.bound_compared, encMin, pairCmp, DataValue.pcmp,
        DataValue.cmpInt, h1, h2, h3, h4, Ordering.then]
  · obtain ⟨k1, rfl⟩ := ha
    simp [ConstantBinary.bound_compared, encMin, pairCmp, DataValue.cmpInt]
  · obtain ⟨k1, rfl⟩ := ha
    obtain ⟨k2, rfl⟩ := hb
    rcases lt_trichotomy k1 k2 with h | h | h
    · simp [ConstantBinary.bound_compared, encMin, pairCmp, DataValue.pcmp,
        DataValue.cmpInt, h, Ordering.then, (show 2 * k1 + 1 < 2 * k2 by omega)]
    · subst h
      have h3 : ¬ 2 * k1 + 1 < 2 * k1 := by omega
      have h4 : ¬ (2 : Int) * k1 + 1 = 2 * k1 := by omega
      simp [ConstantBinary.bound_compared, encMin, pairCmp, DataValue.pcmp,
        DataValue.cmpInt, Ordering.then, h3, h4]
    · have h1 : ¬ k1 < k2 := by omega
      have h2 : ¬ k1 = k2 := by omega
      have h3 : ¬ 2 * k1 + 1 < 2 * k2 := by omega
      have h4 : ¬ (2 : Int) * k1 + 1 = 2 * k2 := by omega
      simp [ConstantBinary.bound_compared, encMin, pairCmp, DataValue.pcmp,
        DataValue.cmpInt, h1, h2, h3, h4, Ordering.then]
  · obtain ⟨k1, rfl⟩ := ha
    obtain ⟨k2, rfl⟩ := hb
    rcases lt_trichotomy k1 k2 with h | h | h
    · simp [ConstantBinary.bound_compared, encMin, pairCmp, DataValue.pcmp,
        DataValue.cmpInt, h, (show 2 * k1 + 1 < 2 * k2 + 1 by omega)]
    · subst h
      simp [ConstantBinary.bound_compared, encMin, pairCmp, DataValue.pcmp, DataValue.cmpInt]
    · have h1 : ¬ k1 < k2 := by omega
      have h2 : ¬ k1 = k2 := by omega
      have h3 : ¬ 2 * k1 + 1 < 2 * k2 + 1 := by omega
      have h4 : ¬ (2 : Int) * k1 + 1 = 2 * k2 + 1 := by omega
      simp [ConstantBinary.bound_compared, encMin, pairCmp, DataValue.pcmp,
        DataValue.cmpInt, h1, h2, h3, h4]

/-- Not-greater in the lexicographic comparison. -/
theorem pairCmp_ne_gt (p q : Int × Int) :
    pairCmp p q ≠ .gt ↔ (p.1 < q.1 ∨ (p.1 = q.1 ∧ p.2 ≤ q.2)) := by
  unfold pairCmp DataValue.cmpInt
  split_ifs <;> simp <;> omega

/-- The lower bound of a leaf is an integer bound. -/
theorem minKey_IntB (b : ConstantBinary) (h : LeafIntB b) :
    IntB (ConstantBinary.minKey b) := by
  cases b <;> simp_all [LeafIntB, ConstantBinary.minKey, IntB]

/-- `cmpMin` on leaves is the lexicographic comparison of encoded lower
bounds. -/
theorem cmpMin_char (a b : ConstantBinary) (ha : LeafIntB a) (hb : LeafIntB b) :
    ConstantBinary.cmpMin a b
      = pairCmp (encMin (ConstantBinary.minKey a)) (encMin (ConstantBinary.minKey b)) := by
  unfold ConstantBinary.cmpMin
  rw [bcmp_min_char _ _ (minKey_IntB a ha) (minKey_IntB b hb)]
  rfl

/-- Greater in the lexicographic comparison. -/
theorem pairCmp_gt (p q : Int × Int) :
    pairCmp p q = .gt ↔ (q.1 < p.1 ∨ (p.1 = q.1 ∧ q.2 < p.2)) := by
  unfold pairCmp DataValue.cmpInt
  split_ifs <;> simp <;> omega

/-- Totality of the sort order on leaves. -/
theorem leMin_total (a b : ConstantBinary) (ha : LeafIntB a) (hb : LeafIntB b)
    (h : ¬ leMinCB a b) : leMinCB b a := by
  unfold leMinCB at h ⊢
  rw [cmpMin_char a b ha hb, not_not, pairCmp_gt] at h
  rw [cmpMin_char b a hb ha, pairCmp_ne_gt]
  omega

/-- Transitivity of the sort order on leaves. -/
theorem leMin_trans (a b c : ConstantBinary) (ha : LeafIntB a) (hb : LeafIntB b)
    (hc : LeafIntB c) (h1 : leMinCB a b) (h2 : leMinCB b c) : leMinCB a c := by
  unfold leMinCB at h1 h2 ⊢
  rw [cmpMin_char a b ha hb, pairCmp_ne_gt] at h1
  rw [cmpMin_char b c hb hc, pairCmp_ne_gt] at h2
  rw [cmpMin_char a c ha hc, pairCmp_ne_gt]
  omega


/-- A strict `is_lt_min` verdict in the merge loop implies semantic
disjointness: the scope ending at `M` lies entirely below a bounded
integer lower bound `m`. -/
theorem bcmp_lt_semBelow (M m : VBound) (hM : IntB M)
    (hm : (∃ k : Int, m = .included (.int32 (some k)))
      ∨ (∃ k : Int, m = .excluded (.int32 (some k))))
    (h : ((ConstantBinary.bound_compared M m false).getD .eq) = .lt) :
    semBelow M m := by
  rcases M with _ | vM | vM
  all_goals rcases hm with ⟨k2, rfl⟩ | ⟨k2, rfl⟩
  all_goals simp only [IntB, IntV] at hM
  · simp [ConstantBinary.bound_compared, Ordering.swap] at h
  · simp [ConstantBinary.bound_compared, Ordering.swap] at h
  · obtain ⟨k1, rfl⟩ := hM
    intro n hn
    obtain ⟨⟨k1a, hk1, hna⟩, k2a, hk2, hnb⟩ := hn
    cases hk1
    cases hk2
    simp [ConstantBinary.bound_compared, DataValue.pcmp, DataValue.cmpInt] at h
    omega
  · obtain ⟨k1, rfl⟩ := hM
    intro n hn
    obtain ⟨⟨k1a, hk1, hna⟩, k2a, hk2, hnb⟩ := hn
    cases hk1
    cases hk2
    simp [ConstantBinary.bound_compared, DataValue.pcmp, DataValue.cmpInt,
      Ordering.then, Ordering.swap] at h
    split_ifs at h
    all_goals simp_all
    all_goals omega
  · obtain ⟨k1, rfl⟩ := hM
    intro n hn
    obtain ⟨⟨k1a, hk1, hna⟩, k2a, hk2, hnb⟩ := hn
    cases hk1
    cases hk2
    simp [ConstantBinary.bound_compared, DataValue.pcmp, DataValue.cmpInt,
      Ordering.then, Ordering.swap] at h
    split_ifs at h
    all_goals simp_all
    all_goals omega
  · obtain ⟨k1, rfl⟩ := hM
    intro n hn
    obtain ⟨⟨k1a, hk1, hna⟩, k2a, hk2, hnb⟩ := hn
    cases hk1
    cases hk2
    simp [ConstantBinary.bound_compared, DataValue.pcmp, DataValue.cmpInt] at h
    omega

/-- Sort-order monotonicity of lower-bound satisfaction: an earlier
lower bound admits every point a later one admits. -/
theorem leMin_satMin_mono (m1 m2 : VBound) (h1 : IntB m1) (h2 : IntB m2)
    (h : ((ConstantBinary.bound_compared m1 m2 true).getD .eq) ≠ .gt) :
    ∀ n : Int, satMin n m2 → satMin n m1 := by
  rcases m1 with _ | v1 | v1 <;> rcases m2 with _ | v2 | v2 <;>
    simp only [IntB, IntV] at h1 h2
  · intro n _; trivial
  · intro n _; trivial
  · intro n _; trivial
  · obtain ⟨k1, rfl⟩ := h1
    simp [ConstantBinary.bound_compared] at h
  · obtain ⟨k1, rfl⟩ := h1
    obtain ⟨k2, rfl⟩ := h2
    simp [ConstantBinary.bound_compared, DataValue.pcmp, DataValue.cmpInt] at h
    rintro n ⟨ka, hka, hn⟩
    cases hka
    exact ⟨k1, rfl, by omega⟩
  · obtain ⟨k1, rfl⟩ := h1
    obtain ⟨k2, rfl⟩ := h2
    simp [ConstantBinary.bound_compared, DataValue.pcmp, DataValue.cmpInt,
      Ordering.then] at h
    rintro n ⟨ka, hka, hn⟩
    cases hka
    refine ⟨k1, rfl, ?_⟩
    by_cases hc : k1 < k2
    · omega
    · by_cases hc2 : k1 = k2
      · omega
      · simp [hc, hc2] at h
  · obtain ⟨k1, rfl⟩ := h1
    simp [ConstantBinary.bound_compared] at h
  · obtain ⟨k1, rfl⟩ := h1
    obtain ⟨k2, rfl⟩ := h2
    simp [ConstantBinary.bound_compared, DataValue.pcmp, DataValue.cmpInt,
      Ordering.then] at h
    rintro n ⟨ka, hka, hn⟩
    cases hka
    refine ⟨k1, rfl, ?_⟩
    by_cases hc : k1 < k2
    · omega
    · by_cases hc2 : k1 = k2
      · simp [hc, hc2] at h
      · simp [hc, hc2] at h
  · obtain ⟨k1, rfl⟩ := h1
    obtain ⟨k2, rfl⟩ := h2
    simp [ConstantBinary.bound_compared, DataValue.pcmp, DataValue.cmpInt] at h
    rintro n ⟨ka, hka, hn⟩
    cases hka
    exact ⟨k1, rfl, by omega⟩

/-- Disjointness composes with lower-bound monotonicity. -/
theorem semBelow_mono (M m m2 : VBound) (h : semBelow M m)
    (hmono : ∀ n : Int, satMin n m2 → satMin n m) : semBelow M m2 := by
  intro n hn
  exact h n ⟨hn.1, hmono n hn.2⟩

/-- Flattening under the bounded-leaf refinement. -/
theorem flattenOr_ok (xs : List ConstantBinary) :
    (∀ b ∈ xs, ArmOKB b) →
    ∃ fl, ConstantBinary.flattenOr xs = .ok fl ∧ ∀ b ∈ fl, LeafIntB b := by
  induction xs with
  | nil => intro _; exact ⟨[], rfl, by simp⟩
  | cons a rest ih =>
    intro hsh
    obtain ⟨fl, h1, h2⟩ := ih (fun b hb => hsh b (List.mem_cons_of_mem _ hb))
    have ha := hsh a (List.mem_cons_self _ _)
    cases a with
    | or zs => exact absurd ha (by simp [ArmOKB, LeafIntB])
    | and zs =>
      refine ⟨zs ++ fl, ?_, ?_⟩
      · show (fun l => zs ++ l) <$> ConstantBinary.flattenOr rest = _
        rw [h1]
        rfl
      · intro b hb
        rcases List.mem_append.mp hb with hb2 | hb2
        · exact ha b hb2
        · exact h2 b hb2
    | scope mn mx =>
      have hleaf : LeafIntB (.scope mn mx) := ha
      rcases mn with _ | v | v
      · exact absurd rfl hleaf.2.2
      · refine ⟨.scope (.included v) mx :: fl, ?_, ?_⟩
        · show (fun l => ConstantBinary.scope (.included v) mx :: l)
            <$> ConstantBinary.flattenOr rest = _
          rw [h1]
          rfl
        · intro b hb
          rcases List.mem_cons.mp hb with rfl | hb2
          · exact hleaf
          · exact h2 b hb2
      · refine ⟨.scope (.excluded v) mx :: fl, ?_, ?_⟩
        · show (fun l => ConstantBinary.scope (.excluded v) mx :: l)
            <$> ConstantBinary.flattenOr rest = _
          rw [h1]
          rfl
        · intro b hb
          rcases List.mem_cons.mp hb with rfl | hb2
          · exact hleaf
          · exact h2 b hb2
    | eq v =>
      refine ⟨.eq v :: fl, ?_, ?_⟩
      · show (fun l => ConstantBinary.eq v :: l) <$> ConstantBinary.flattenOr rest = _
        rw [h1]
        rfl
      · intro b hb
        rcases List.mem_cons.mp hb with rfl | hb2
        · exact ha
        · exact h2 b hb2
    | notEq v =>
      refine ⟨.notEq v :: fl, ?_, ?_⟩
      · show (fun l => ConstantBinary.notEq v :: l) <$> ConstantBinary.flattenOr rest = _
        rw [h1]
        rfl
      · intro b hb
        rcases List.mem_cons.mp hb with rfl | hb2
        · exact ha
        · exact h2 b hb2


/-- Being a `Scope` is exactly having the `scope` shape. -/
theorem isScope_true_iff (b : ConstantBinary) :
    b.isScope = true ↔ ∃ mn mx, b = .scope mn mx := by
  cases b <;> simp [ConstantBinary.isScope]

/-- The merge key's upper component of an integer leaf is an integer
bound. -/
theorem condOp_snd_IntB (c : ConstantBinary) (h : LeafIntB c) :
    IntB (ConstantBinary.condOp c).2 := by
  cases c <;> simp_all [LeafIntB, ConstantBinary.condOp, IntB, IntV]

/-- A bounded integer lower bound is `Included` or `Excluded` of an
integer. -/
theorem IntB_ne_unbounded (m : VBound) (h1 : IntB m) (h2 : m ≠ .unbounded) :
    (∃ k : Int, m = .included (.int32 (some k)))
      ∨ (∃ k : Int, m = .excluded (.int32 (some k))) := by
  cases m with
  | unbounded => exact absurd rfl h2
  | included v => obtain ⟨k, rfl⟩ := h1; exact Or.inl ⟨k, rfl⟩
  | excluded v => obtain ⟨k, rfl⟩ := h1; exact Or.inr ⟨k, rfl⟩

/-- Dominance implies scope disjointness. -/
theorem domRel_scDisj (a b : ConstantBinary) (h : domRel a b) : scDisj a b := by
  intro m1 M1 m2 M2 ha hb n hn
  subst ha
  subst hb
  exact h rfl rfl n ⟨hn.1.2, hn.2.1⟩

/-- Membership through stable insertion. -/
theorem mem_orderedIns (le : ConstantBinary → ConstantBinary → Bool)
    (a x : ConstantBinary) (l : List ConstantBinary) :
    x ∈ ConstantBinary.orderedIns le a l ↔ x = a ∨ x ∈ l := by
  induction l with
  | nil => simp [ConstantBinary.orderedIns]
  | cons b l ih =>
    simp only [ConstantBinary.orderedIns]
    split_ifs
    · simp [List.mem_cons]
    · simp only [List.mem_cons, ih]
      tauto

/-- Stable insertion permutes. -/
theorem orderedIns_perm (le : ConstantBinary → ConstantBinary → Bool)
    (a : ConstantBinary) (l : List ConstantBinary) :
    (ConstantBinary.orderedIns le a l).Perm (a :: l) := by
  induction l with
  | nil => simp [ConstantBinary.orderedIns]
  | cons b l ih =>
    simp only [ConstantBinary.orderedIns]
    split_ifs
    · exact List.Perm.refl _
    · exact (ih.cons b).trans (List.Perm.swap a b l)

/-- The stable sort permutes. -/
theorem stableSortBy_perm (le : ConstantBinary → ConstantBinary → Bool)
    (l : List ConstantBinary) :
    (ConstantBinary.stableSortBy le l).Perm l := by
  induction l with
  | nil => exact List.Perm.refl _
  | cons a l ih =>
    exact (orderedIns_perm le a _).trans (ih.cons a)

/-- Stable insertion into a sorted list keeps it sorted, under totality
and transitivity restricted to a predicate covering the elements. -/
theorem orderedIns_pairwise (le : ConstantBinary → ConstantBinary → Bool)
    (P : ConstantBinary → Prop)
    (htot : ∀ x y, P x → P y → ¬ le x y = true → le y x = true)
    (htrans : ∀ x y z, P x → P y → P z →
      le x y = true → le y z = true → le x z = true)
    (a : ConstantBinary) (l : List ConstantBinary)
    (hPa : P a) (hPl : ∀ b ∈ l, P b)
    (hp : l.Pairwise (fun x y => le x y = true)) :
    (ConstantBinary.orderedIns le a l).Pairwise (fun x y => le x y = true) := by
  induction l with
  | nil => simp [ConstantBinary.orderedIns]
  | cons b l ih =>
    simp only [ConstantBinary.orderedIns]
    rw [List.pairwise_cons] at hp
    split_ifs with hab
    · refine List.pairwise_cons.mpr ⟨?_, List.pairwise_cons.mpr hp⟩
      intro y hy
      rcases List.mem_cons.mp hy with rfl | hy2
      · exact hab
      · exact htrans a b y hPa (hPl b (List.mem_cons_self _ _))
          (hPl y (List.mem_cons_of_mem _ hy2)) hab (hp.1 y hy2)
    · refine List.pairwise_cons.mpr
        ⟨?_, ih (fun x hx => hPl x (List.mem_cons_of_mem _ hx)) hp.2⟩
      intro y hy
      rcases (mem_orderedIns le a y l).mp hy with heq | hy2
      · rw [heq]
        exact htot a b hPa (hPl b (List.mem_cons_self _ _)) hab
      · exact hp.1 y hy2

/-- The stable sort sorts, under restricted totality and transitivity. -/
theorem stableSortBy_pairwise (le : ConstantBinary → ConstantBinary → Bool)
    (P : ConstantBinary → Prop)
    (htot : ∀ x y, P x → P y → ¬ le x y = true → le y x = true)
    (htrans : ∀ x y z, P x → P y → P z →
      le x y = true → le y z = true → le x z = true)
    (l : List ConstantBinary) (hPl : ∀ b ∈ l, P b) :
    (ConstantBinary.stableSortBy le l).Pairwise (fun x y => le x y = true) := by
  induction l with
  | nil => simp [ConstantBinary.stableSortBy]
  | cons a l ih =>
    have hperm := stableSortBy_perm le l
    simp only [ConstantBinary.stableSortBy]
    exact orderedIns_pairwise le P htot htrans a _
      (hPl a (List.mem_cons_self _ _))
      (fun b hb => hPl b (List.mem_cons_of_mem _ (hperm.mem_iff.mp hb)))
      (ih (fun b hb => hPl b (List.mem_cons_of_mem _ hb)))

/-- The reverse walk finds no `Scope` in a scope-free list. -/
theorem updLast_none (c : ConstantBinary) (m : List ConstantBinary)
    (h : ∀ b ∈ m, b.isScope = false) : ConstantBinary.updLast c m = none := by
  induction m with
  | nil => rfl
  | cons b rest ih =>
    have hb := h b (List.mem_cons_self _ _)
    have hr := ih (fun x hx => h x (List.mem_cons_of_mem _ hx))
    cases b <;> simp_all [ConstantBinary.updLast, ConstantBinary.isScope]

/-- The reverse walk locates the last `Scope` and applies the branch
body to it. -/
theorem updLast_spec (c : ConstantBinary) (mn mx : VBound)
    (pre post : List ConstantBinary) (hpost : ∀ b ∈ post, b.isScope = false) :
    ConstantBinary.updLast c (pre ++ .scope mn mx :: post)
      = some (pre ++ .scope mn (ConstantBinary.scopeBranch mx c).1 :: post,
          (ConstantBinary.scopeBranch mx c).2) := by
  induction pre with
  | nil =>
    simp only [List.nil_append, ConstantBinary.updLast, updLast_none c post hpost]
  | cons b pre ih =>
    simp only [List.cons_append, ConstantBinary.updLast, List.append_eq, ih]

/-- Every merged list is scope-free or splits at its last `Scope`. -/
theorem last_scope_decomp (m : List ConstantBinary) :
    (∀ b ∈ m, b.isScope = false) ∨
    ∃ pre mn mx post, m = pre ++ .scope mn mx :: post
      ∧ ∀ b ∈ post, b.isScope = false := by
  induction m with
  | nil => exact Or.inl (by simp)
  | cons b rest ih =>
    rcases ih with hall | ⟨pre, mn, mx, post, rfl, hpost⟩
    · by_cases hb : b.isScope = true
      · obtain ⟨mn, mx, rfl⟩ := (isScope_true_iff b).mp hb
        exact Or.inr ⟨[], mn, mx, rest, rfl, hall⟩
      · refine Or.inl ?_
        intro x hx
        rcases List.mem_cons.mp hx with rfl | hx2
        · simpa using hb
        · exact hall x hx2
    · exact Or.inr ⟨b :: pre, mn, mx, post, rfl, hpost⟩

/-- Replacing the distinguished middle element preserves pairwiseness
when the relation transfers on both sides. -/
theorem pairwise_replace (R : ConstantBinary → ConstantBinary → Prop)
    (pre post : List ConstantBinary) (a b : ConstantBinary)
    (h1 : ∀ x ∈ pre, R x a → R x b)
    (h2 : ∀ y ∈ post, R a y → R b y)
    (hp : (pre ++ a :: post).Pairwise R) :
    (pre ++ b :: post).Pairwise R := by
  rw [List.pairwise_append] at hp ⊢
  obtain ⟨hpre, hrest, hcross⟩ := hp
  rw [List.pairwise_cons] at hrest ⊢
  refine ⟨hpre, ⟨fun y hy => h2 y hy (hrest.1 y hy), hrest.2⟩, ?_⟩
  intro x hx y hy
  rcases List.mem_cons.mp hy with rfl | hy2
  · exact h1 x hx (hcross x hx a (List.mem_cons_self _ _))
  · exact hcross x hx y (List.mem_cons_of_mem _ hy2)

/-- Case analysis on the merge branch body: a pushed candidate leaves
the scope's `max` unchanged; a pushed `Scope` candidate passed the
strict `is_lt_min` test; the new `max` is the old one or the
candidate's upper component. -/
theorem scopeBranch_char (mx : VBound) (c : ConstantBinary) :
    ((ConstantBinary.scopeBranch mx c).2 = true
        → (ConstantBinary.scopeBranch mx c).1 = mx) ∧
    ((ConstantBinary.scopeBranch mx c).2 = true → c.isScope = true →
      ((ConstantBinary.bound_compared mx (ConstantBinary.condOp c).1 false).getD .eq)
        = .lt) ∧
    ((ConstantBinary.scopeBranch mx c).1 = mx ∨
      (ConstantBinary.scopeBranch mx c).1 = (ConstantBinary.condOp c).2) := by
  dsimp only [ConstantBinary.scopeBranch]
  by_cases h1 : ¬ (((ConstantBinary.bound_compared mx (ConstantBinary.condOp c).1 false).getD .eq) = .lt)
      ∧ (((ConstantBinary.bound_compared mx (ConstantBinary.condOp c).2 false).getD .eq) = .lt)
  · rw [if_pos h1]
    exact ⟨fun h => absurd h (by simp), fun h _ => absurd h (by simp), Or.inr rfl⟩
  · rw [if_neg h1]
    by_cases h2 : c.isScope = true
    · rw [if_neg (not_not_intro h2)]
      by_cases h3 : (((ConstantBinary.bound_compared mx (ConstantBinary.condOp c).1 false).getD .eq) = .lt)
          ∧ (((ConstantBinary.bound_compared mx (ConstantBinary.condOp c).2 false).getD .eq) = .lt)
      · rw [if_pos h3]
        exact ⟨fun _ => rfl, fun _ _ => h3.1, Or.inl rfl⟩
      · rw [if_neg h3]
        exact ⟨fun h => absurd h (by simp), fun h _ => absurd h (by simp), Or.inl rfl⟩
    · rw [if_pos h2]
      exact ⟨fun _ => rfl, fun _ hsc => absurd hsc h2, Or.inl rfl⟩


/-- One iteration of the merge loop preserves the rearrangement
invariant: integer leaves with bounded lower bounds, sortedness by
lower bound, sortedness against the remaining candidates, scope
dominance (each scope ends strictly below every later scope's start),
and provenance of the non-`Scope` elements. -/
theorem mergeStep_inv (m : List ConstantBinary) (c : ConstantBinary)
    (rest fl : List ConstantBinary)
    (hc : LeafIntB c)
    (hcr : ∀ x ∈ rest, leMinCB c x)
    (hm_leaf : ∀ b ∈ m, LeafIntB b)
    (hm_sorted : m.Pairwise leMinCB)
    (hcross : ∀ b ∈ m, ∀ x ∈ c :: rest, leMinCB b x)
    (hdom : m.Pairwise domRel)
    (hmem : ∀ b ∈ m, b.isScope = false → b ∈ fl)
    (hcfl : c.isScope = false → c ∈ fl) :
    (∀ b ∈ ConstantBinary.mergeStep m c, LeafIntB b) ∧
    (ConstantBinary.mergeStep m c).Pairwise leMinCB ∧
    (∀ b ∈ ConstantBinary.mergeStep m c, ∀ x ∈ rest, leMinCB b x) ∧
    (ConstantBinary.mergeStep m c).Pairwise domRel ∧
    (∀ b ∈ ConstantBinary.mergeStep m c, b.isScope = false → b ∈ fl) := by
  rcases last_scope_decomp m with hall | ⟨pre, mn, mx, post, rfl, hpost⟩
  · cases m with
    | nil =>
      have hstep : ConstantBinary.mergeStep [] c = [c] := rfl
      rw [hstep]
      refine ⟨?_, List.pairwise_singleton _ _, ?_, List.pairwise_singleton _ _, ?_⟩
      · intro b hb
        rcases List.mem_singleton.mp hb with rfl
        exact hc
      · intro b hb x hx
        rcases List.mem_singleton.mp hb with rfl
        exact hcr x hx
      · intro b hb hbs
        rcases List.mem_singleton.mp hb with rfl
        exact hcfl hbs
    | cons b0 m0 =>
      have hnone : ConstantBinary.updLast c (b0 :: m0) = none :=
        updLast_none c (b0 :: m0) hall
      have hstep : ConstantBinary.mergeStep (b0 :: m0) c = b0 :: m0 := by
        unfold ConstantBinary.mergeStep
        rw [hnone]
        rfl
      rw [hstep]
      exact ⟨hm_leaf, hm_sorted,
        fun b hb x hx => hcross b hb x (List.mem_cons_of_mem _ hx), hdom, hmem⟩
  · have hm_mem : ConstantBinary.scope mn mx ∈ pre ++ ConstantBinary.scope mn mx :: post :=
      List.mem_append.mpr (Or.inr (List.mem_cons_self _ _))
    have hleaf_s := hm_leaf _ hm_mem
    have hBmn : IntB mn := hleaf_s.1
    have hBmx : IntB mx := hleaf_s.2.1
    have hmnne : mn ≠ VBound.unbounded := hleaf_s.2.2
    have hsome := updLast_spec c mn mx pre post hpost
    have hstep : ConstantBinary.mergeStep (pre ++ ConstantBinary.scope mn mx :: post) c
        = if (ConstantBinary.scopeBranch mx c).2
          then (pre ++ ConstantBinary.scope mn (ConstantBinary.scopeBranch mx c).1 :: post) ++ [c]
          else pre ++ ConstantBinary.scope mn (ConstantBinary.scopeBranch mx c).1 :: post := by
      unfold ConstantBinary.mergeStep
      rw [hsome]
    have hmx' : IntB (ConstantBinary.scopeBranch mx c).1 := by
      rcases (scopeBranch_char mx c).2.2 with h | h
      · rw [h]; exact hBmx
      · rw [h]; exact condOp_snd_IntB c hc
    have hm'_leaf : ∀ b ∈ pre ++ ConstantBinary.scope mn (ConstantBinary.scopeBranch mx c).1 :: post,
        LeafIntB b := by
      intro b hb
      rcases List.mem_append.mp hb with hb1 | hb1
      · exact hm_leaf b (List.mem_append.mpr (Or.inl hb1))
      · rcases List.mem_cons.mp hb1 with rfl | hb2
        · exact ⟨hBmn, hmx', hmnne⟩
        · exact hm_leaf b (List.mem_append.mpr (Or.inr (List.mem_cons_of_mem _ hb2)))
    have hm'_sorted :
        (pre ++ ConstantBinary.scope mn (ConstantBinary.scopeBranch mx c).1 :: post).Pairwise leMinCB :=
      pairwise_replace leMinCB pre post (ConstantBinary.scope mn mx)
        (ConstantBinary.scope mn (ConstantBinary.scopeBranch mx c).1)
        (fun x _ h => h) (fun y _ h => h) hm_sorted
    have hm'_dom :
        (pre ++ ConstantBinary.scope mn (ConstantBinary.scopeBranch mx c).1 :: post).Pairwise domRel := by
      refine pairwise_replace domRel pre post (ConstantBinary.scope mn mx)
        (ConstantBinary.scope mn (ConstantBinary.scopeBranch mx c).1) ?_ ?_ hdom
      · intro x _ h h1 _
        exact h h1 rfl
      · intro y hy _ _ h2
        rw [hpost y hy] at h2
        exact absurd h2 (by simp)
    have hm'_cross : ∀ b ∈ pre ++ ConstantBinary.scope mn (ConstantBinary.scopeBranch mx c).1 :: post,
        ∀ x ∈ c :: rest, leMinCB b x := by
      intro b hb x hx
      rcases List.mem_append.mp hb with hb1 | hb1
      · exact hcross b (List.mem_append.mpr (Or.inl hb1)) x hx
      · rcases List.mem_cons.mp hb1 with rfl | hb2
        · exact hcross _ hm_mem x hx
        · exact hcross b (List.mem_append.mpr (Or.inr (List.mem_cons_of_mem _ hb2))) x hx
    have hm'_mem : ∀ b ∈ pre ++ ConstantBinary.scope mn (ConstantBinary.scopeBranch mx c).1 :: post,
        b.isScope = false → b ∈ fl := by
      intro b hb hbs
      rcases List.mem_append.mp hb with hb1 | hb1
      · exact hmem b (List.mem_append.mpr (Or.inl hb1)) hbs
      · rcases List.mem_cons.mp hb1 with rfl | hb2
        · exact absurd hbs (by simp [ConstantBinary.isScope])
        · exact hmem b (List.mem_append.mpr (Or.inr (List.mem_cons_of_mem _ hb2))) hbs
    rw [hstep]
    by_cases hp : (ConstantBinary.scopeBranch mx c).2 = true
    · rw [if_pos hp]
      have hmx_eq : (ConstantBinary.scopeBranch mx c).1 = mx := (scopeBranch_char mx c).1 hp
      refine ⟨?_, ?_, ?_, ?_, ?_⟩
      · intro b hb
        rcases List.mem_append.mp hb with hb1 | hb1
        · exact hm'_leaf b hb1
        · rcases List.mem_singleton.mp hb1 with rfl
          exact hc
      · rw [List.pairwise_append]
        refine ⟨hm'_sorted, List.pairwise_singleton _ _, ?_⟩
        intro b hb x hx
        rcases List.mem_singleton.mp hx with rfl
        exact hm'_cross b hb _ (List.mem_cons_self _ _)
      · intro b hb x hx
        rcases List.mem_append.mp hb with hb1 | hb1
        · exact hm'_cross b hb1 x (List.mem_cons_of_mem _ hx)
        · rcases List.mem_singleton.mp hb1 with rfl
          exact hcr x hx
      · rw [List.pairwise_append]
        refine ⟨hm'_dom, List.pairwise_singleton _ _, ?_⟩
        intro b hb x hx
        rcases List.mem_singleton.mp hx with rfl
        intro hbs hcs
        have hlt : ((ConstantBinary.bound_compared mx (ConstantBinary.condOp x).1 false).getD .eq) = .lt :=
          (scopeBranch_char mx x).2.1 hp hcs
        obtain ⟨cmn, cmx, rfl⟩ := (isScope_true_iff x).mp hcs
        have hsem : semBelow mx cmn :=
          bcmp_lt_semBelow mx cmn hBmx (IntB_ne_unbounded cmn hc.1 hc.2.2) hlt
        rcases List.mem_append.mp hb with hb1 | hb1
        · obtain ⟨bmn, bmx, rfl⟩ := (isScope_true_iff b).mp hbs
          have hd0 := (List.pairwise_append.mp hdom).2.2 _ hb1 _ (List.mem_cons_self _ _)
          have hd : semBelow bmx mn := hd0 rfl rfl
          have hle : ((ConstantBinary.bound_compared mn cmn true).getD .eq) ≠ .gt :=
            hcross _ hm_mem _ (List.mem_cons_self _ _)
          have hmono := leMin_satMin_mono mn cmn hBmn hc.1 hle
          exact semBelow_mono bmx mn cmn hd hmono
        · rcases List.mem_cons.mp hb1 with rfl | hb2
          · show semBelow (ConstantBinary.scopeBranch mx (ConstantBinary.scope cmn cmx)).1 cmn
            rw [hmx_eq]
            exact hsem
          · rw [hpost b hb2] at hbs
            exact absurd hbs (by simp)
      · intro b hb hbs
        rcases List.mem_append.mp hb with hb1 | hb1
        · exact hm'_mem b hb1 hbs
        · rcases List.mem_singleton.mp hb1 with rfl
          exact hcfl hbs
    · rw [if_neg hp]
      exact ⟨hm'_leaf, hm'_sorted,
        fun b hb x hx => hm'_cross b hb x (List.mem_cons_of_mem _ hx),
        hm'_dom, hm'_mem⟩


/-- The merge-loop invariant folded over the whole sorted candidate
list. -/
theorem mergeAll_inv (cands : List ConstantBinary) :
    ∀ (m fl : List ConstantBinary),
    (∀ c ∈ cands, LeafIntB c) →
    cands.Pairwise leMinCB →
    (∀ c ∈ cands, c.isScope = false → c ∈ fl) →
    (∀ b ∈ m, LeafIntB b) →
    m.Pairwise leMinCB →
    (∀ b ∈ m, ∀ x ∈ cands, leMinCB b x) →
    m.Pairwise domRel →
    (∀ b ∈ m, b.isScope = false → b ∈ fl) →
    (∀ b ∈ cands.foldl ConstantBinary.mergeStep m, LeafIntB b) ∧
    (cands.foldl ConstantBinary.mergeStep m).Pairwise leMinCB ∧
    (cands.foldl ConstantBinary.mergeStep m).Pairwise domRel ∧
    (∀ b ∈ cands.foldl ConstantBinary.mergeStep m, b.isScope = false → b ∈ fl) := by
  induction cands with
  | nil =>
    intro m fl _ _ _ h1 h2 _ h4 h5
    exact ⟨h1, h2, h4, h5⟩
  | cons c cands ih =>
    intro m fl hcl hcs hcfl hml hms hcr hdom hmem
    rw [List.foldl_cons]
    rw [List.pairwise_cons] at hcs
    obtain ⟨s1, s2, s3, s4, s5⟩ := mergeStep_inv m c cands fl
      (hcl c (List.mem_cons_self _ _)) hcs.1 hml hms hcr hdom hmem
      (hcfl c (List.mem_cons_self _ _))
    exact ih (ConstantBinary.mergeStep m c) fl
      (fun x hx => hcl x (List.mem_cons_of_mem _ hx)) hcs.2
      (fun x hx => hcfl x (List.mem_cons_of_mem _ hx))
      s1 s2 s3 s4 s5

/-- `rearrange` on an `Or` of admissible arms whose `Scope`s (including
those spliced out of `And` arms) all carry bounded lower bounds yields
the flattened list sorted by lower bound with pairwise-disjoint
`Scope`s, and every non-`Scope` output element is an element of the
flattened input, unchanged (in particular surviving `Eq`s remain
`Eq`). -/
theorem rearrange_sorted_disjoint (xs : List ConstantBinary)
    (hsh : ∀ b ∈ xs, ArmOKB b) :
    ∃ fl out, ConstantBinary.flattenOr xs = .ok fl ∧
      ConstantBinary.rearrange (.or xs) = .ok out ∧
      out.Pairwise leMinCB ∧
      out.Pairwise scDisj ∧
      (∀ b ∈ out, b.isScope = false → b ∈ fl) := by
  obtain ⟨fl, hfl, hleaf⟩ := flattenOr_ok xs hsh
  have hre : ConstantBinary.rearrange (.or xs)
      = .ok (ConstantBinary.mergeAll
          (ConstantBinary.stableSortBy
            (fun a b => ConstantBinary.cmpMin a b ≠ .gt) fl)) := by
    show ConstantBinary.flattenOr xs >>= (fun condition_binaries =>
        Except.ok (ConstantBinary.mergeAll (ConstantBinary.stableSortBy
          (fun a b => ConstantBinary.cmpMin a b ≠ .gt) condition_binaries))) = _
    rw [hfl]
    rfl
  have hsperm := stableSortBy_perm
    (fun a b => ConstantBinary.cmpMin a b ≠ .gt) fl
  have hA : ∀ c ∈ ConstantBinary.stableSortBy
      (fun a b => ConstantBinary.cmpMin a b ≠ .gt) fl, LeafIntB c :=
    fun c hc => hleaf c (hsperm.mem_iff.mp hc)
  have hB : (ConstantBinary.stableSortBy
      (fun a b => ConstantBinary.cmpMin a b ≠ .gt) fl).Pairwise leMinCB := by
    refine List.Pairwise.imp ?_
      (stableSortBy_pairwise _ LeafIntB ?_ ?_ fl hleaf)
    · intro a b h
      exact of_decide_eq_true h
    · intro x y hx hy h
      exact decide_eq_true
        (leMin_total x y hx hy (fun hh => h (decide_eq_true hh)))
    · intro x y z hx hy hz h1 h2
      exact decide_eq_true
        (leMin_trans x y z hx hy hz (of_decide_eq_true h1) (of_decide_eq_true h2))
  have hC : ∀ c ∈ ConstantBinary.stableSortBy
      (fun a b => ConstantBinary.cmpMin a b ≠ .gt) fl,
      c.isScope = false → c ∈ fl :=
    fun c hc _ => hsperm.mem_iff.mp hc
  obtain ⟨g1, g2, g3, g4⟩ := mergeAll_inv
    (ConstantBinary.stableSortBy (fun a b => ConstantBinary.cmpMin a b ≠ .gt) fl)
    [] fl hA hB hC
    (fun b hb => absurd hb (List.not_mem_nil b))
    List.Pairwise.nil
    (fun b hb => absurd hb (List.not_mem_nil b))
    List.Pairwise.nil
    (fun b hb => absurd hb (List.not_mem_nil b))
  exact ⟨fl, _, hfl, hre, g2, g3.imp (fun h => domRel_scDisj _ _ h), g4⟩

/-- C4: the sorted-disjoint cover fails on the reachable input
`Or [Scope{Unbounded, Included 5}, Scope{Unbounded, Included 10}]`
(both arms admissible leaves of the claim): `rearrange` returns both
scopes unmerged, and they overlap — the integer `0` lies in both.  The
merge loop compares the last scope's `max` with the candidate's *lower*
bound using `is_min = false`, so the candidate's `Unbounded` minimum is
treated as `+∞`, the strict `is_lt_min` test passes, and the
overlapping scope is pushed instead of being absorbed by extending
`max`. -/
theorem C4_theorem :
    (∀ b ∈ [ConstantBinary.scope .unbounded (.included (.int32 (some 5))),
        ConstantBinary.scope .unbounded (.included (.int32 (some 10)))], ArmOK b) ∧
    ConstantBinary.rearrange (.or
        [.scope .unbounded (.included (.int32 (some 5))),
         .scope .unbounded (.included (.int32 (some 10)))])
      = .ok [.scope .unbounded (.included (.int32 (some 5))),
             .scope .unbounded (.included (.int32 (some 10)))] ∧
    ¬ scDisj (.scope .unbounded (.included (.int32 (some 5))))
        (.scope .unbounded (.included (.int32 (some 10)))) := by
  refine ⟨?_, rfl, ?_⟩
  · intro b hb
    rcases List.mem_cons.mp hb with rfl | hb2
    · exact ⟨trivial, ⟨5, rfl⟩⟩
    · rcases List.mem_cons.mp hb2 with rfl | hb3
      · exact ⟨trivial, ⟨10, rfl⟩⟩
      · exact absurd hb3 (List.not_mem_nil b)
  · intro h
    exact h _ _ _ _ rfl rfl 0
      ⟨⟨trivial, ⟨5, rfl, by omega⟩⟩, trivial, ⟨10, rfl, by omega⟩⟩

end KipSql
